import Mathlib
/-!
Verification of the core text utilities of the vscode-vyper extension:
the built-in document formatter (`formatBuiltin` in src/features/formatter.js),
its whitespace-only variant, and the compiler diagnostic extractor
(`extractLineNumber` / `parseErrorMessage` in compile.js).

The JavaScript functions are regex-replacement pipelines.  Each regex used by
the source is specialized here into a deterministic character-list scanner
that reproduces the JS engine's leftmost-match / alternation-order /
greedy-with-backtracking behaviour for that particular pattern.  All
definitions are executable so that concrete inputs can be settled by `decide`.

Notes on fidelity:
* JS `\s`, `\w`, `\d`, `\b` are modelled for the ASCII range (the JS classes
  additionally contain exotic Unicode whitespace, which no claim exercises).
* `String.replace` with a global regex scans left to right, resumes after
  each match and never rescans replacement text; the scanners below mirror
  that by emitting replacements and continuing on the untouched remainder.
* Scanners use an explicit fuel argument (structural recursion) so that the
  kernel can evaluate them; fuel 0 returns the remaining input unchanged and
  every step consumes at least one character, so `length + 1` fuel is always
  sufficient.
-/

/-- ASCII part of the JS `\s` class (whitespace). -/
def isWsJS (c : Char) : Bool :=
  c = ' ' || c = '\t' || c = '\n' || c = '\r' || c = '\x0b' || c = '\x0c'

/-- JS `\w` class: `[A-Za-z0-9_]`. -/
def isWordJS (c : Char) : Bool :=
  c.isAlpha || c.isDigit || c = '_'

/-- Hex digit or underscore, the repeated class of the `0x` number alternative. -/
def isHexU (c : Char) : Bool :=
  c.isDigit || ('a' ≤ c && c ≤ 'f') || ('A' ≤ c && c ≤ 'F') || c = '_'

/-- Binary digit or underscore, the repeated class of the `0b` number alternative. -/
def isBinU (c : Char) : Bool :=
  c = '0' || c = '1' || c = '_'

/-- Digit or underscore, the repeated class `[\d_]` of the decimal alternative. -/
def isDigU (c : Char) : Bool :=
  c.isDigit || c = '_'

/-- Boolean prefix test on character lists. -/
def chPre : List Char → List Char → Bool
  | [], _ => true
  | _ :: _, [] => false
  | p :: ps, c :: cs => p = c && chPre ps cs

/-- Does `pat` occur as a contiguous substring of `l`? -/
def hasSub (l pat : List Char) : Bool :=
  match l with
  | [] => chPre pat []
  | _ :: rest => chPre pat l || hasSub rest pat

/-- Value of a list of decimal digit characters (JS `parseInt` on a `\d+` match). -/
def digitsVal (ds : List Char) : Nat :=
  ds.foldl (fun acc c => acc * 10 + (c.toNat - '0'.toNat)) 0

/-- Decimal digit characters of `n` (used to print placeholder indices). -/
def natChars (n : Nat) : List Char :=
  (Nat.toDigits 10 n)

/-- Extend the first line of a split result to the left. -/
def prependLine (xs : List Char) : List (List Char) → List (List Char)
  | [] => [xs]
  | l :: ls => (xs ++ l) :: ls

/-- Split on `\r?\n` exactly like `text.split(/\r?\n/)`: a `\n` ends a line,
a `\r` directly followed by `\n` ends a line consuming both, and any other
character (including a lone `\r`) stays in the current line. -/
def splitLines : List Char → List (List Char)
  | [] => [[]]
  | c :: rest =>
      if c = '\n' then [] :: splitLines rest
      else if c = '\r' then
        match rest with
        | d :: rest2 =>
            if d = '\n' then [] :: splitLines rest2
            else prependLine [c] (splitLines (d :: rest2))
        | [] => [[c]]
      else prependLine [c] (splitLines rest)

/-- JS `String.prototype.trimEnd` (ASCII whitespace). -/
def trimEndJS (l : List Char) : List Char :=
  (l.reverse.dropWhile isWsJS).reverse

/-- JS `String.prototype.trim` (ASCII whitespace). -/
def trimJS (l : List Char) : List Char :=
  (trimEndJS l).dropWhile isWsJS

/-- Join lines with `'\n'`, like `Array.prototype.join('\n')`. -/
def joinNL : List (List Char) → List Char
  | [] => []
  | l :: ls =>
      match ls with
      | [] => l
      | _ :: _ => l ++ '\n' :: joinNL ls

/-- The placeholder token inserted by the `mask` callback:
`` `__PLACEHOLDER_${k}__` ``. -/
def phToken (k : Nat) : List Char :=
  "__PLACEHOLDER_".data ++ natChars k ++ "__".data

/-- Earliest occurrence of a triple quote `qqq` in `l` (the lazy
`[\s\S]*?` of the triple-quoted alternatives): returns the content before it
and the remainder after it. -/
def findClose3 (q : Char) : List Char → Option (List Char × List Char)
  | [] => none
  | c :: rest =>
      if c = q && chPre [q, q] rest then
        some ([], rest.drop 2)
      else
        match findClose3 q rest with
        | none => none
        | some (mid, after) => some (c :: mid, after)

/-- Body scan of `"(?:[^"\\]|\\.)*"` (resp. single quotes) after the opening
quote.  JS `.` does not match line terminators, so a backslash immediately
followed by a newline makes the whole alternative fail (backtracking cannot
rescue it: no interior position carries the closing quote).  Returns the
consumed characters including the closing quote, and the remainder. -/
def scanQuoted (q : Char) : List Char → Option (List Char × List Char)
  | [] => none
  | c :: rest =>
      if c = q then some ([c], rest)
      else if c = '\\' then
        match rest with
        | [] => none
        | d :: rest2 =>
            if d = '\n' || d = '\r' then none
            else
              match scanQuoted q rest2 with
              | none => none
              | some (tl, after) => some (c :: d :: tl, after)
      else
        match scanQuoted q rest with
        | none => none
        | some (tl, after) => some (c :: tl, after)

/-- Triple-quoted alternative `qqq[\s\S]*?qqq`. -/
def tryTriple (q : Char) (l : List Char) : Option (List Char × List Char) :=
  match l with
  | a :: b :: c :: rest =>
      if a = q && b = q && c = q then
        match findClose3 q rest with
        | none => none
        | some (mid, after) => some (q :: q :: q :: (mid ++ [q, q, q]), after)
      else none
  | _ => none

/-- Plain quoted alternative `q(?:[^q\\]|\\.)*q`. -/
def tryQuoted (q : Char) (l : List Char) : Option (List Char × List Char) :=
  match l with
  | c :: rest =>
      if c = q then
        match scanQuoted q rest with
        | none => none
        | some (tl, after) => some (q :: tl, after)
      else none
  | [] => none

/-- Comment alternative `#[^\r\n]*`. -/
def tryComment (l : List Char) : Option (List Char × List Char) :=
  match l with
  | c :: rest =>
      if c = '#' then
        some (c :: rest.takeWhile (fun x => !(x = '\n' || x = '\r')),
              rest.dropWhile (fun x => !(x = '\n' || x = '\r')))
      else none
  | [] => none

/-- Single alternation step of the string/comment pattern
`("""[\s\S]*?"""|'''[\s\S]*?'''|"(?:[^"\\]|\\.)*"|'(?:[^'\\]|\\.)*'|#[^\r\n]*)`
at the current position, alternatives in source order. -/
def tryMaskSC (l : List Char) : Option (List Char × List Char) :=
  (tryTriple '"' l).orElse fun _ =>
  (tryTriple '\'' l).orElse fun _ =>
  (tryQuoted '"' l).orElse fun _ =>
  (tryQuoted '\'' l).orElse fun _ =>
  tryComment l

/-- Global replacement pass for the string/comment pattern: each match is
stored and replaced by its placeholder token.  `k` is the index of the next
placeholder; returns the masked text and the stored matches in order. -/
def maskSCGo (fuel : Nat) (l : List Char) (k : Nat) : List Char × List (List Char) :=
  match fuel with
  | 0 => (l, [])
  | fuel + 1 =>
      match l with
      | [] => ([], [])
      | c :: rest =>
          match tryMaskSC l with
          | some (span, after) =>
              let (t, ps) := maskSCGo fuel after (k + 1)
              (phToken k ++ t, span :: ps)
          | none =>
              let (t, ps) := maskSCGo fuel rest k
              (c :: t, ps)

def maskSC (l : List Char) : List Char × List (List Char) :=
  maskSCGo (l.length + 1) l 0

/-- JS `\b` between the last consumed character and the remainder:
true iff exactly one side is a word character (an empty remainder counts as
non-word). -/
def bAfter (last : Char) (r : List Char) : Bool :=
  match r with
  | [] => isWordJS last
  | c :: _ => isWordJS last != isWordJS c

/-- Backtracking over `[\d_]+` (the exponent digits): try `i` digits of the
greedy run, longest first, at least one, each followed by the trailing `\b`. -/
def expDigLoop (cons : List Char) (crun : List Char) (aft : List Char) :
    Nat → Option (List Char × List Char)
  | 0 => none
  | i + 1 =>
      let taken := crun.take (i + 1)
      let lastC := taken.getLast?.getD ' '
      let rest := crun.drop (i + 1) ++ aft
      if bAfter lastC rest then some (cons ++ taken, rest)
      else expDigLoop cons crun aft i

/-- The optional exponent `(?:[eE][+-]?[\d_]+)?` followed by the trailing
`\b`: group-present (sign-present first) before group-absent, digits longest
first. -/
def tryExpPart (cons : List Char) (lastC : Char) (r : List Char) :
    Option (List Char × List Char) :=
  let noExp : Option (List Char × List Char) :=
    if bAfter lastC r then some (cons, r) else none
  match r with
  | e :: r3 =>
      if e = 'e' || e = 'E' then
        let signAttempt :=
          match r3 with
          | s :: r4 =>
              if s = '+' || s = '-' then
                let crun := r4.takeWhile isDigU
                expDigLoop (cons ++ [e, s]) crun (r4.drop crun.length) crun.length
              else none
          | [] => none
        match signAttempt with
        | some res => some res
        | none =>
            let crun := r3.takeWhile isDigU
            match expDigLoop (cons ++ [e]) crun (r3.drop crun.length) crun.length with
            | some res => some res
            | none => noExp
      else noExp
  | [] => noExp

/-- Backtracking over the fraction digits `[\d_]*` after a consumed dot:
`i` digits, longest first, down to zero, each continuing with the exponent
part.  `cons` already contains the dot. -/
def dotDigLoop (cons : List Char) (brun : List Char) (aft : List Char) :
    Nat → Option (List Char × List Char)
  | 0 =>
      (tryExpPart cons '.' (brun.drop 0 ++ aft)).orElse fun _ => none
  | i + 1 =>
      let taken := brun.take (i + 1)
      let lastB := taken.getLast?.getD '.'
      let rest := brun.drop (i + 1) ++ aft
      match tryExpPart (cons ++ taken) lastB rest with
      | some res => some res
      | none => dotDigLoop cons brun aft i

/-- Backtracking over the integer digits `[\d_]*` after the leading `\d`:
`i` digits, longest first, down to zero; for each, the optional fraction
`(?:\.[\d_]*)?` is tried present-first, then the exponent part. -/
def intDigLoop (d : Char) (arun : List Char) (aft : List Char) :
    Nat → Option (List Char × List Char)
  | 0 =>
      let restA := arun.drop 0 ++ aft
      let dotAttempt :=
        match restA with
        | '.' :: r2 =>
            let brun := r2.takeWhile isDigU
            dotDigLoop (d :: ['.']) brun (r2.drop brun.length) brun.length
        | _ => none
      match dotAttempt with
      | some res => some res
      | none => tryExpPart [d] d restA
  | i + 1 =>
      let taken := arun.take (i + 1)
      let lastA := taken.getLast?.getD d
      let restA := arun.drop (i + 1) ++ aft
      let consA := d :: taken
      let dotAttempt :=
        match restA with
        | '.' :: r2 =>
            let brun := r2.takeWhile isDigU
            dotDigLoop (consA ++ ['.']) brun (r2.drop brun.length) brun.length
        | _ => none
      match dotAttempt with
      | some res => some res
      | none =>
          match tryExpPart consA lastA restA with
          | some res => some res
          | none => intDigLoop d arun aft i

/-- Number alternatives
`\b(?:0x[0-9a-fA-F_]+|0b[01_]+|\d[\d_]*(?:\.[\d_]*)?(?:[eE][+-]?[\d_]+)?)\b`
at the current position (the leading `\b` is checked by the driver).  For the
`0x`/`0b` alternatives every class character is a word character, so only the
full greedy run can satisfy the trailing `\b`. -/
def tryNum (l : List Char) : Option (List Char × List Char) :=
  let alt1 : Option (List Char × List Char) :=
    match l with
    | c :: d :: r =>
        if c = '0' && d = 'x' then
          let run := r.takeWhile isHexU
          if run.isEmpty then none
          else
            let rest := r.drop run.length
            if (match rest with | [] => true | e :: _ => !isWordJS e) then
              some (c :: d :: run, rest)
            else none
        else none
    | _ => none
  let alt2 : Option (List Char × List Char) :=
    match l with
    | c :: d :: r =>
        if c = '0' && d = 'b' then
          let run := r.takeWhile isBinU
          if run.isEmpty then none
          else
            let rest := r.drop run.length
            if (match rest with | [] => true | e :: _ => !isWordJS e) then
              some (c :: d :: run, rest)
            else none
        else none
    | _ => none
  let alt3 : Option (List Char × List Char) :=
    match l with
    | d :: r =>
        if d.isDigit then
          let arun := r.takeWhile isDigU
          intDigLoop d arun (r.drop arun.length) arun.length
        else none
    | [] => none
  (alt1.orElse fun _ => alt2).orElse fun _ => alt3

/-- Is the previous character compatible with a `\b` before a word
character? -/
def prevNonWord : Option Char → Bool
  | none => true
  | some c => !isWordJS c

/-- Global replacement pass for the number pattern, continuing the
placeholder numbering at `k`. -/
def maskNumGo (fuel : Nat) (prev : Option Char) (l : List Char) (k : Nat) :
    List Char × List (List Char) :=
  match fuel with
  | 0 => (l, [])
  | fuel + 1 =>
      match l with
      | [] => ([], [])
      | c :: rest =>
          match (if prevNonWord prev then tryNum l else none) with
          | some (span, after) =>
              let (t, ps) := maskNumGo fuel (some (span.getLast?.getD c)) after (k + 1)
              (phToken k ++ t, span :: ps)
          | none =>
              let (t, ps) := maskNumGo fuel (some c) rest k
              (c :: t, ps)

def maskNum (l : List Char) (k : Nat) : List Char × List (List Char) :=
  maskNumGo (l.length + 1) none l k

/-- Tab normalization `replace(/\t/g, '    ')`. -/
def tabNorm (l : List Char) : List Char :=
  l.flatMap fun c => if c = '\t' then [' ', ' ', ' ', ' '] else [c]

/-- The always-binary operator list, in the source's alternation order
(longest first). -/
def safeOps : List (List Char) :=
  ["//".data, "->".data,
   "==".data, "!=".data, "<=".data, ">=".data,
   "+=".data, "-=".data, "*=".data, "/=".data, "%=".data,
   "=".data, "/".data, "%".data, "<".data, ">".data]

/-- First operator of `ops` that is a prefix of `l`, with the remainder. -/
def tryOps (ops : List (List Char)) (l : List Char) :
    Option (List Char × List Char) :=
  match ops with
  | [] => none
  | op :: rest =>
      if chPre op l then some (op, l.drop op.length)
      else tryOps rest l

/-- Leading whitespace run. -/
def spanWs (l : List Char) : List Char × List Char :=
  (l.takeWhile isWsJS, l.dropWhile isWsJS)

/-- Global replacement `\s*(op-alternation)\s*` → `' $1 '`.  No operator
contains a whitespace character, so the alternation can only succeed at the
end of the greedy leading whitespace run; a match therefore starts at the
first position of a whitespace run that is directly followed by an operator
(or at the operator itself). -/
def opPadGo (ops : List (List Char)) (fuel : Nat) (l : List Char) : List Char :=
  match fuel with
  | 0 => l
  | fuel + 1 =>
      match l with
      | [] => []
      | c :: rest =>
          let (w, r) := spanWs l
          match tryOps ops r with
          | some (op, r') =>
              let r'' := (spanWs r').2
              ' ' :: (op ++ ' ' :: opPadGo ops fuel r'')
          | none =>
              if w.isEmpty then c :: opPadGo ops fuel rest
              else w ++ opPadGo ops fuel r

def safePad (l : List Char) : List Char :=
  opPadGo safeOps (l.length + 1) l

/-- The context-sensitive operator list `(\*\*|\+|-|\*)` in alternation
order. -/
def ambOps : List (List Char) :=
  ["**".data, "+".data, "-".data, "*".data]

/-- Is `c` allowed by the lookbehind class `[\w)\]]`? -/
def lookbehindOK : Option Char → Bool
  | none => false
  | some c => isWordJS c || c = ')' || c = ']'

/-- Global replacement `(?<=[\w)\]])\s*(\*\*|\+|-|\*)\s*` → `' $1 '`.
The lookbehind inspects the character of the original text immediately
before the match; scanning resumes after each match with that character
being the last consumed one. -/
def ambPadGo (fuel : Nat) (prev : Option Char) (l : List Char) : List Char :=
  match fuel with
  | 0 => l
  | fuel + 1 =>
      match l with
      | [] => []
      | c :: rest =>
          let attempt :=
            if lookbehindOK prev then
              let r := (spanWs l).2
              match tryOps ambOps r with
              | some (op, r') =>
                  let (w2, r'') := spanWs r'
                  some (op, w2, r'')
              | none => none
            else none
          match attempt with
          | some (op, w2, r'') =>
              let lastCh := (w2.getLast?).getD ((op.getLast?).getD c)
              ' ' :: (op ++ ' ' :: ambPadGo fuel (some lastCh) r'')
          | none => c :: ambPadGo fuel (some c) rest

def ambPad (l : List Char) : List Char :=
  ambPadGo (l.length + 1) none l

/-- Global replacement `\s*,\s*` → `', '`. -/
def commaPadGo (fuel : Nat) (l : List Char) : List Char :=
  match fuel with
  | 0 => l
  | fuel + 1 =>
      match l with
      | [] => []
      | c :: rest =>
          let (w, r) := spanWs l
          match r with
          | r0 :: r' =>
              if r0 = ',' then ',' :: ' ' :: commaPadGo fuel ((spanWs r').2)
              else if w.isEmpty then c :: commaPadGo fuel rest
              else w ++ commaPadGo fuel r
          | [] =>
              if w.isEmpty then c :: commaPadGo fuel rest
              else w ++ commaPadGo fuel r

def commaPad (l : List Char) : List Char :=
  commaPadGo (l.length + 1) l

/-- The blank-collapsing loop of the full formatter: a line is blank when
`line.trim() === ''`; the first two blanks of a run are pushed as `''`,
further ones are dropped. -/
def collapseGo : List (List Char) → Nat → List (List Char)
  | [], _ => []
  | line :: rest, blank =>
      if (trimJS line).isEmpty then
        if blank + 1 ≤ 2 then [] :: collapseGo rest (blank + 1)
        else collapseGo rest (blank + 1)
      else line :: collapseGo rest 0

/-- `while (result.length > 0 && result[result.length-1] === '') result.pop()`. -/
def dropTrailBlank (ls : List (List Char)) : List (List Char) :=
  (ls.reverse.dropWhile List.isEmpty).reverse

/-- Step 4 of the formatter: split, trim line ends, collapse blank runs,
drop trailing blanks, rejoin with a final newline. -/
def lineProcess (l : List Char) : List Char :=
  let ls := (splitLines l).map trimEndJS
  joinNL (dropTrailBlank (collapseGo ls 0)) ++ ['\n']

/-- Step 5: `replace(/__PLACEHOLDER_(\d+)__/g, ...)`.  A missing index makes
the JS callback return `undefined`, which `replace` stringifies to
`"undefined"`. -/
def restoreGo (ps : List (List Char)) (fuel : Nat) (l : List Char) : List Char :=
  match fuel with
  | 0 => l
  | fuel + 1 =>
      match l with
      | [] => []
      | c :: rest =>
          if chPre "__PLACEHOLDER_".data l then
            let r := l.drop 14
            let ds := r.takeWhile Char.isDigit
            if !ds.isEmpty && chPre "__".data (r.drop ds.length) then
              let repl := (ps.get? (digitsVal ds)).getD "undefined".data
              repl ++ restoreGo ps fuel (r.drop (ds.length + 2))
            else c :: restoreGo ps fuel rest
          else c :: restoreGo ps fuel rest

/-- The built-in formatter of src/features/formatter.js, whole pipeline. -/
def formatBuiltinL (l : List Char) : List Char :=
  let m1 := maskSC l
  let m2 := maskNum m1.1 m1.2.length
  let ps := m1.2 ++ m2.2
  let t7 := lineProcess (commaPad (ambPad (safePad (tabNorm m2.1))))
  restoreGo ps (t7.length + 1) t7

def formatBuiltin (s : String) : String := ⟨formatBuiltinL s.data⟩

/-- The blank-collapsing loop of the whitespace-only variant: a line is
blank when `line === ''`, and the blank line itself is pushed. -/
def collapseVarGo : List (List Char) → Nat → List (List Char)
  | [], _ => []
  | line :: rest, blank =>
      if line.isEmpty then
        if blank + 1 ≤ 2 then line :: collapseVarGo rest (blank + 1)
        else collapseVarGo rest (blank + 1)
      else line :: collapseVarGo rest 0

/-- The whitespace-only `formatBuiltin` variant (tab normalization, per-line
trailing-whitespace strip, blank-line collapsing, trailing-blank removal,
final newline; no masking and no operator transformation). -/
def formatBuiltinWsL (l : List Char) : List Char :=
  let ls := (splitLines l).map (fun line => trimEndJS (tabNorm line))
  joinNL (dropTrailBlank (collapseVarGo ls 0)) ++ ['\n']

def formatBuiltinWs (s : String) : String := ⟨formatBuiltinWsL s.data⟩

/-- Leftmost match of `/(?:line\s+(\d+))/` (the generic search of
`extractLineNumber`): literal `line`, at least one whitespace character,
then a greedy digit run.  Failure at a position moves the scan one
character forward, so the `line` may also sit inside a longer word. -/
def findLineWS (fuel : Nat) (l : List Char) : Option Nat :=
  match fuel, l with
  | 0, _ => none
  | _, [] => none
  | fuel + 1, _ :: rest =>
      (if chPre "line".data l then
        let r := l.drop 4
        let w := r.takeWhile isWsJS
        let ds := (r.drop w.length).takeWhile Char.isDigit
        if !w.isEmpty && !ds.isEmpty then some (digitsVal ds) else none
      else none).orElse fun _ => findLineWS fuel rest

/-- `extractLineNumber`: generic `line <N>` search, defaulting to 1. -/
def extractLineNumber (s : String) : Nat :=
  (findLineWS (s.data.length + 1) s.data).getD 1

/-- Leftmost match of `/line (\d+)/` (exactly one space). -/
def findLineSp (fuel : Nat) (l : List Char) : Option Nat :=
  match fuel, l with
  | 0, _ => none
  | _, [] => none
  | fuel + 1, _ :: rest =>
      (if chPre "line ".data l then
        let ds := (l.drop 5).takeWhile Char.isDigit
        if !ds.isEmpty then some (digitsVal ds) else none
      else none).orElse fun _ => findLineSp fuel rest

/-- Tail `\s+line\s+(\d+).*$` of the vyper exception pattern: returns the
number of characters it consumes and the captured line number.  Both `\s+`
runs are forced to their full greedy extent because the following literal
starts with a non-whitespace character. -/
def vyperTail (r2 : List Char) : Option (Nat × Nat) :=
  let w1 := r2.takeWhile isWsJS
  if w1.isEmpty then none
  else
    let r3 := r2.drop w1.length
    if chPre "line".data r3 then
      let r4 := r3.drop 4
      let w2 := r4.takeWhile isWsJS
      if w2.isEmpty then none
      else
        let r5 := r4.drop w2.length
        let ds := r5.takeWhile Char.isDigit
        if ds.isEmpty then none
        else
          let roln := (r5.drop ds.length).takeWhile fun c => !(c = '\n' || c = '\r')
          some (w1.length + 4 + w2.length + ds.length + roln.length, digitsVal ds)
    else none

/-- Backtracking of `\w+Exception:` over the greedy word run after
`vyper.exceptions.`: try `k` word characters, longest first, at least one;
each candidate must be followed by the literal `Exception:` and a
successful tail. -/
def vyperKLoop (r : List Char) : Nat → Option (Nat × Nat)
  | 0 => none
  | k + 1 =>
      (if chPre "Exception:".data (r.drop (k + 1)) then
        match vyperTail (r.drop (k + 1 + 10)) with
        | some (tlen, n) => some (k + 1 + 10 + tlen, n)
        | none => none
      else none).orElse fun _ => vyperKLoop r k

/-- Leftmost match of
`/vyper\.exceptions\.\w+Exception:\s+(?:line\s+(\d+)).*$/m`:
returns the whole matched span (which runs to the end of its line) and the
captured line number. -/
def vyperExecGo (fuel : Nat) (l : List Char) : Option (List Char × Nat) :=
  match fuel, l with
  | 0, _ => none
  | _, [] => none
  | fuel + 1, _ :: rest =>
      (if chPre "vyper.exceptions.".data l then
        let r := l.drop 17
        match vyperKLoop r (r.takeWhile isWordJS).length with
        | some (rlen, n) => some ("vyper.exceptions.".data ++ r.take rlen, n)
        | none => none
      else none).orElse fun _ => vyperExecGo fuel rest

/-- The record produced by `parseErrorMessage`. -/
structure ParsedError where
  shortmsg : String
  lineNr : Nat
deriving Repr, DecidableEq

/-- `parseErrorMessage` of compile.js. -/
def parseErrorMessage (s : String) : ParsedError :=
  let lines := (splitLines s.data).map fun l => (⟨l⟩ : String)
  let short0 : String := (lines.head?).getD ""
  let ln0 := extractLineNumber s
  if lines.contains "SyntaxError: invalid syntax" then
    ⟨"SyntaxError: invalid syntax", (findLineSp (s.data.length + 1) s.data).getD ln0⟩
  else
    match vyperExecGo (s.data.length + 1) s.data with
    | some (m0, n) => ⟨⟨m0⟩, n⟩
    | none => ⟨short0, ln0⟩

/-- Does `l` end with `pat`? -/
def endsWithL (l pat : List Char) : Bool := chPre pat.reverse l.reverse

/-- Occurrence check for claim C3: every occurrence of `op` in the text is
surrounded by exactly one space on each side.  `prev1` is the character
directly before the scan position, `prev2` the one before that. -/
def opSpacedGo (op : List Char) (prev2 prev1 : Option Char) (l : List Char) : Bool :=
  match l with
  | [] => true
  | c :: rest =>
      (!(chPre op l) ||
        ((prev1 == some ' ') && !(prev2 == some ' ') &&
         (match l.drop op.length with
          | ' ' :: ' ' :: _ => false
          | ' ' :: _ => true
          | _ => false))) &&
      opSpacedGo op prev1 (some c) rest

def opSpaced (op : String) (s : String) : Bool :=
  opSpacedGo op.data none none s.data

/-- Occurrence check for claim C6: every comma has no space before it and
exactly one space after it. -/
def commaOKGo (prev : Option Char) (l : List Char) : Bool :=
  match l with
  | [] => true
  | c :: rest =>
      (!(c = ',') ||
        (!(prev == some ' ') &&
         (match rest with
          | ' ' :: ' ' :: _ => false
          | ' ' :: _ => true
          | _ => false))) &&
      commaOKGo (some c) rest

def commaOK (s : String) : Bool := commaOKGo none s.data

/-- The four output guarantees of claim C5: at most two consecutive blank
lines, final character a single newline, no blank last line, and no line
ending in a space or tab. -/
def outTidy (s : String) : Bool :=
  !(hasSub s.data "\n\n\n\n".data) && !(chPre "\n\n\n".data s.data) &&
  endsWithL s.data "\n".data && !(endsWithL s.data "\n\n".data) &&
  !(hasSub s.data " \n".data) && !(hasSub s.data "\t\n".data)

/-- Masking (strings/comments, then numbers) immediately followed by
placeholder restoration, with no transformation in between. -/
def maskRestore (s : String) : String :=
  let m1 := maskSC s.data
  let m2 := maskNum m1.1 m1.2.length
  ⟨restoreGo (m1.2 ++ m2.2) (m2.1.length + 1) m2.1⟩

/-- Representative formatter inputs: the spec's operator examples together
with comment/string/number/blank-line shapes. -/
def reprInputs : List String :=
  ["a==b", "-1", "a-1", "a,b,c", "a=/b", "a+=b", "a->b", "a///b",
   "x = 1e-10", "a\t=1\n\n\n\n\nb=2\n", "a,", "a-",
   "s = \"\"\"doc\"\"\" # note",
   "def f(a, b):\n    return a+b # sum"]

/-- Representative inputs paired with a string/comment span they contain. -/
def preservedSpans : List (String × String) :=
  [("x=\"a  b\" # c  d", "\"a  b\""),
   ("x=\"a  b\" # c  d", "# c  d"),
   ("v = '''m  \nl'''+1", "'''m  \nl'''"),
   ("w = 'don\\'t'", "'don\\'t'"),
   ("y = \"\"\"q\n\nr\"\"\"", "\"\"\"q\n\nr\"\"\"")]

/-- Inputs for the masking/restoration round trip of claim C7. -/
def roundtripInputs : List String :=
  ["x = \"a b\" # c", "'''doc''' and 0x1F", "v = 1e-10 # t",
   "\"\"\"m\nl\"\"\"", "plain text", "w = 'a' + \"b\" # c's"]

/-- The always-binary operators that contain none of `+`, `-`, `*` and
therefore survive the later arithmetic pass intact. -/
def nonSplitOps : List String :=
  ["//", "==", "!=", "<=", ">=", "/=", "%=", "=", "/", "%", "<", ">"]

/-- Characters of claim C10's restricted alphabet: letters, spaces, tabs
and newlines. -/
def plainChar (c : Char) : Bool :=
  c.isAlpha || c = ' ' || c = '\t' || c = '\n'

/-- First characters of the operators handled by the spacing passes. -/
def opStart (c : Char) : Bool :=
  c = '/' || c = '-' || c = '=' || c = '!' || c = '<' || c = '>' ||
  c = '+' || c = '*' || c = '%'

/-- Characters of claim C5's restricted alphabet: anything that can start
neither a mask (no quotes, hash or digits) nor a placeholder token (no
underscore). -/
def inert (c : Char) : Bool :=
  !(c = '"' || c = '\'' || c = '#' || c = '_' || c.isDigit)

/-- Number of leading blank lines. -/
def leadBlanks : List (List Char) → Nat
  | [] => 0
  | l :: ls => if l.isEmpty then leadBlanks ls + 1 else 0

/-- No suffix starts with three or more blank lines. -/
def blanksOK : List (List Char) → Prop
  | [] => True
  | l :: ls => (l.isEmpty = true → leadBlanks (l :: ls) ≤ 2) ∧ blanksOK ls

/-- C1: the claim `formatBuiltin (formatBuiltin x) = formatBuiltin x` for
every `x` is false.  On `__PLACEHOLDER_1"a" 1e-5` the restoration pass
resolves the raw token text against the placeholder table and drops the
masked number next to word characters, where a second pass cannot re-mask
it and splits its exponent sign. -/
theorem C1_not_idempotent :
    formatBuiltin (formatBuiltin "__PLACEHOLDER_1\"a\" 1e-5") ≠
      formatBuiltin "__PLACEHOLDER_1\"a\" 1e-5" := by decide

/-- C1 (amended): `formatBuiltin` is idempotent on representative inputs —
the spec's operator examples together with comment, string, number,
tab and blank-line shapes. -/
theorem C1_idempotent_repr :
    (reprInputs.all fun x =>
      formatBuiltin (formatBuiltin x) == formatBuiltin x) = true := by decide

/-- C2: the claim that every string/comment span reappears byte-for-byte is
false.  In `__PLACEHOLDER_1"s"` the restoration regex consumes the raw
token text together with the opening of the mask's own token, so the
string literal `"s"` is lost from the output. -/
theorem C2_preservation_fails :
    formatBuiltin "__PLACEHOLDER_1\"s\"" = "undefinedPLACEHOLDER_0__\n" ∧
    hasSub (formatBuiltin "__PLACEHOLDER_1\"s\"").data "\"s\"".data = false := by
  decide

/-- C2 (amended): on inputs free of raw placeholder-pattern text, masked
string and comment spans appear byte-for-byte in the output; verified on
representative inputs covering double/single/triple-quoted strings with
escapes, inner runs of spaces and newlines, and comments. -/
theorem C2_preservation_repr :
    (preservedSpans.all fun p =>
      hasSub (formatBuiltin p.1).data p.2.data) = true := by decide

/-- C3: the claim that every listed operator occurrence in the output is
surrounded by exactly one space on each side is false: an operator at the
end of a line loses its trailing space to the trailing-whitespace strip. -/
theorem C3_not_single_spaced :
    formatBuiltin "a=" = "a =\n" ∧
    opSpaced "=" (formatBuiltin "a=") = false := by decide

/-- C3 (amended): the single-space guarantee holds for the listed operators
not containing `+`, `-` or `*` when the operator sits between operands;
`->`, `+=`, `-=`, `*=` are split by the later arithmetic pass, and two
adjacent operators accumulate a double space between them. -/
theorem C3_spacing_repr :
    (nonSplitOps.all fun op =>
      formatBuiltin ("a" ++ op ++ "b") == "a " ++ op ++ " b\n" &&
      opSpaced op (formatBuiltin ("a" ++ op ++ "b"))) = true ∧
    formatBuiltin "a->b" = "a - > b\n" ∧
    formatBuiltin "a+=b" = "a + = b\n" ∧
    formatBuiltin "a-=b" = "a - = b\n" ∧
    formatBuiltin "a*=b" = "a * = b\n" ∧
    formatBuiltin "a=/b" = "a =  / b\n" := by decide

/-- C4: the claim that `+`, `-`, `*`, `**` are padded with one space on
each side exactly when preceded by an operand-like token is false as an
end-to-end statement: in `a-` the operator is preceded by an operand, but
the inserted trailing space is stripped again at the end of the line. -/
theorem C4_pad_stripped_at_eol :
    formatBuiltin "a-" = "a -\n" ∧
    hasSub (formatBuiltin "a-").data " - ".data = false := by decide

/-- C4 (amended): the ambiguous arithmetic operators are padded exactly
when preceded (ignoring whitespace) by a word character, placeholder
suffix or closing bracket/parenthesis — up to the later per-line
trailing-space strip; in particular `-1` stays `-1` and `a-1` becomes
`a - 1`. -/
theorem C4_context_pad :
    formatBuiltin "-1" = "-1\n" ∧ formatBuiltin "a-1" = "a - 1\n" ∧
    formatBuiltin "+1" = "+1\n" ∧ formatBuiltin "a+1" = "a + 1\n" ∧
    formatBuiltin "*a" = "*a\n" ∧ formatBuiltin "b*a" = "b * a\n" ∧
    formatBuiltin "**a" = "**a\n" ∧ formatBuiltin "b**a" = "b ** a\n" ∧
    formatBuiltin "(a)-1" = "(a) - 1\n" ∧
    formatBuiltin "x[i]-1" = "x[i] - 1\n" ∧
    formatBuiltin "e-1" = "e - 1\n" := by decide

/-- C5: the claim that no output line ends in a space or tab (part of the
blank-line/trailing-newline bound) is false: a comment whose text ends in a
space is restored verbatim, putting the space back at the end of the
line. -/
theorem C5_trailing_ws_reintroduced :
    formatBuiltin "# c " = "# c \n" ∧
    outTidy (formatBuiltin "# c ") = false := by decide

/-- C6: the claim that every comma has no space before it is false: in
`a,,b` the first comma's inserted trailing space ends up directly before
the second comma. -/
theorem C6_comma_space_before :
    formatBuiltin "a,,b" = "a, , b\n" ∧
    commaOK (formatBuiltin "a,,b") = false := by decide

/-- C6 (amended): commas get no leading and exactly one trailing space,
except that a comma at the end of a line loses the trailing space and a
comma directly after another comma keeps that comma's inserted space
before it; in particular `a,b,c` becomes `a, b, c`. -/
theorem C6_comma_repr :
    formatBuiltin "a,b,c" = "a, b, c\n" ∧
    commaOK (formatBuiltin "a,b,c") = true ∧
    formatBuiltin "a , b" = "a, b\n" ∧
    formatBuiltin "f(a ,b, c)" = "f(a, b, c)\n" ∧
    formatBuiltin "a," = "a,\n" := by decide

/-- C7: the claim that placeholder substitution composed with restoration
is the identity on all non-transformed text is false: `__PLACEHOLDER_0__`
contains no maskable span at all, yet restoration rewrites it to the
stringified missing-index lookup `undefined`. -/
theorem C7_roundtrip_fails :
    maskRestore "__PLACEHOLDER_0__" = "undefined" ∧
    maskRestore "__PLACEHOLDER_0__" ≠ "__PLACEHOLDER_0__" ∧
    formatBuiltin "__PLACEHOLDER_0__" = "undefined\n" := by decide

/-- C7 (amended): for inputs that contain no raw text matching the
reserved token pattern, masking followed by restoration is the identity;
verified on representative inputs with strings, comments and numeric
literals. -/
theorem C7_roundtrip_repr :
    (roundtripInputs.all fun s => maskRestore s == s) = true := by decide

/-- C8: the diagnostic extractor applies its patterns first-match-wins:
whenever some line equals `SyntaxError: invalid syntax` the message is
fixed to that text (even if a vyper exception signature is also present,
as the third conjunct shows); otherwise a `vyper.exceptions.<X>Exception:
line <N> ...` signature makes the whole matched span the message with `N`
as the line number, as on the spec's example. -/
theorem C8_branch_order :
    (∀ s : String,
        (((splitLines s.data).map fun l => (⟨l⟩ : String)).contains
            "SyntaxError: invalid syntax") = true →
        (parseErrorMessage s).shortmsg = "SyntaxError: invalid syntax") ∧
    parseErrorMessage "vyper.exceptions.StructureException: line 7 invalid type" =
      ⟨"vyper.exceptions.StructureException: line 7 invalid type", 7⟩ ∧
    parseErrorMessage
        "SyntaxError: invalid syntax\nvyper.exceptions.StructureException: line 7 bad" =
      ⟨"SyntaxError: invalid syntax", 7⟩ ∧
    parseErrorMessage "SyntaxError: invalid syntax\n  line 12" =
      ⟨"SyntaxError: invalid syntax", 12⟩ := by
  refine ⟨?_, by decide, by decide, by decide⟩
  intro s h
  simp only [parseErrorMessage, h, if_true]

theorem C8_branch_order_witness :
    (parseErrorMessage "SyntaxError: invalid syntax\nline 4").shortmsg =
      "SyntaxError: invalid syntax" :=
  C8_branch_order.1 "SyntaxError: invalid syntax\nline 4" (by decide)

/-- C9: the diagnostic extractor is total and, when neither the
SyntaxError branch nor the vyper exception signature applies, it returns
the first line of the input as the message together with the generic
`line <N>` search result (which itself defaults to 1), as on the spec's
example. -/
theorem C9_total_default :
    (∀ s : String,
        (((splitLines s.data).map fun l => (⟨l⟩ : String)).contains
            "SyntaxError: invalid syntax") = false →
        vyperExecGo (s.data.length + 1) s.data = none →
        parseErrorMessage s =
          ⟨((((splitLines s.data).map fun l => (⟨l⟩ : String)).head?).getD ""),
           extractLineNumber s⟩) ∧
    parseErrorMessage "some random crash\nno location info" =
      ⟨"some random crash", 1⟩ := by
  refine ⟨?_, by decide⟩
  intro s h1 h2
  simp only [parseErrorMessage, h1, h2, Bool.false_eq_true, if_false]

theorem C9_total_default_witness :
    parseErrorMessage "boom" =
      ⟨((((splitLines ("boom" : String).data).map fun l => (⟨l⟩ : String)).head?).getD ""),
       extractLineNumber "boom"⟩ :=
  C9_total_default.1 "boom" (by decide) (by decide)

theorem alpha_not_digit {c : Char} (h : c.isAlpha = true) : c.isDigit = false := by
  simp only [Char.isAlpha, Char.isUpper, Char.isLower, Char.isDigit,
    Bool.or_eq_true, Bool.and_eq_true, decide_eq_true_eq] at h ⊢
  rcases h with ⟨h1, _⟩ | ⟨h1, _⟩ <;>
  · have hx : ¬ (c.val ≤ 57) := fun hd => absurd (UInt32.le_trans h1 hd) (by decide)
    simp [hx]

theorem plain_ne {c x : Char} (h : plainChar c = true) (hx : plainChar x = false) :
    c ≠ x := by
  intro e; subst e; rw [h] at hx; exact Bool.noConfusion hx

theorem plain_not_digit {c : Char} (h : plainChar c = true) : c.isDigit = false := by
  have h' := h
  simp only [plainChar, Bool.or_eq_true, decide_eq_true_eq] at h'
  rcases h' with ((h' | rfl) | rfl) | rfl
  · exact alpha_not_digit h'
  all_goals decide

theorem plain_opStart {c : Char} (h : plainChar c = true) : opStart c = false := by
  cases hop : opStart c with
  | false => rfl
  | true =>
      simp only [opStart, Bool.or_eq_true, decide_eq_true_eq] at hop
      rcases hop with ((((((((rfl | rfl) | rfl) | rfl) | rfl) | rfl) | rfl) | rfl) | rfl) <;>
        exact absurd h (by decide)

theorem inert_ne {c x : Char} (h : inert c = true) (hx : inert x = false) :
    c ≠ x := by
  intro e; subst e; rw [h] at hx; exact Bool.noConfusion hx

theorem inert_not_digit {c : Char} (h : inert c = true) : c.isDigit = false := by
  simp only [inert, Bool.not_eq_true', Bool.or_eq_false_iff,
    decide_eq_false_iff_not] at h
  exact h.2

theorem plain_inert {c : Char} (h : plainChar c = true) : inert c = true := by
  simp only [inert, Bool.not_eq_true', Bool.or_eq_false_iff,
    decide_eq_false_iff_not]
  exact ⟨⟨⟨⟨plain_ne h (by decide), plain_ne h (by decide)⟩,
    plain_ne h (by decide)⟩, plain_ne h (by decide)⟩, plain_not_digit h⟩

theorem chPre_head_ne {p c : Char} {ps cs : List Char} (h : p ≠ c) :
    chPre (p :: ps) (c :: cs) = false := by simp [chPre, h]

theorem tryTriple_none {q c : Char} {rest : List Char} (h : c ≠ q) :
    tryTriple q (c :: rest) = none := by
  rcases rest with _ | ⟨d, _ | ⟨e, r⟩⟩
  · rfl
  · rfl
  · simp [tryTriple, h]

theorem tryQuoted_none {q c : Char} {rest : List Char} (h : c ≠ q) :
    tryQuoted q (c :: rest) = none := by
  simp [tryQuoted, h]

theorem tryComment_none {c : Char} {rest : List Char} (h : c ≠ '#') :
    tryComment (c :: rest) = none := by
  simp [tryComment, h]

theorem tryMaskSC_none {c : Char} {rest : List Char}
    (h1 : c ≠ '"') (h2 : c ≠ '\'') (h3 : c ≠ '#') :
    tryMaskSC (c :: rest) = none := by
  simp [tryMaskSC, tryTriple_none h1, tryTriple_none h2,
    tryQuoted_none h1, tryQuoted_none h2, tryComment_none h3, Option.orElse]

theorem maskSCGo_id {l : List Char}
    (h : ∀ c ∈ l, c ≠ '"' ∧ c ≠ '\'' ∧ c ≠ '#') :
    ∀ fuel k, maskSCGo fuel l k = (l, []) := by
  induction l with
  | nil => intro fuel k; cases fuel <;> rfl
  | cons c rest ih =>
      intro fuel k
      cases fuel with
      | zero => rfl
      | succ fuel =>
          have hc := h c (by simp)
          simp [maskSCGo, tryMaskSC_none hc.1 hc.2.1 hc.2.2,
            ih (fun x hx => h x (by simp [hx])) fuel k]

theorem tryNum_none {c : Char} {rest : List Char} (h : c.isDigit = false) :
    tryNum (c :: rest) = none := by
  have h0 : c ≠ '0' := by intro e; subst e; exact Bool.noConfusion h
  rcases rest with _ | ⟨d, r⟩
  · simp [tryNum, h]
  · simp [tryNum, h, h0]

theorem maskNumGo_id {l : List Char} (h : ∀ c ∈ l, c.isDigit = false) :
    ∀ fuel prev k, maskNumGo fuel prev l k = (l, []) := by
  induction l with
  | nil => intro fuel prev k; cases fuel <;> rfl
  | cons c rest ih =>
      intro fuel prev k
      cases fuel with
      | zero => rfl
      | succ fuel =>
          simp [maskNumGo, tryNum_none (h c (by simp)),
            ih (fun x hx => h x (by simp [hx])) fuel (some c) k]

theorem tryOps_none {ops : List (List Char)} {l : List Char}
    (h : ∀ op ∈ ops, chPre op l = false) : tryOps ops l = none := by
  induction ops with
  | nil => rfl
  | cons op rest ih =>
      simp only [tryOps, h op (by simp), Bool.false_eq_true, if_false]
      exact ih fun o ho => h o (by simp [ho])

theorem tryOps_safe_none_nil : tryOps safeOps [] = none := by decide

theorem tryOps_amb_none_nil : tryOps ambOps [] = none := by decide

theorem tryOps_safe_none {x : Char} {xs : List Char} (hx : opStart x = false) :
    tryOps safeOps (x :: xs) = none := by
  apply tryOps_none
  intro op hop
  simp only [opStart, Bool.or_eq_false_iff, decide_eq_false_iff_not] at hx
  obtain ⟨⟨⟨⟨⟨⟨⟨⟨h1, h2⟩, h3⟩, h4⟩, h5⟩, h6⟩, h7⟩, h8⟩, h9⟩ := hx
  fin_cases hop <;>
    first
      | exact chPre_head_ne fun e => h1 e.symm
      | exact chPre_head_ne fun e => h2 e.symm
      | exact chPre_head_ne fun e => h3 e.symm
      | exact chPre_head_ne fun e => h4 e.symm
      | exact chPre_head_ne fun e => h5 e.symm
      | exact chPre_head_ne fun e => h6 e.symm
      | exact chPre_head_ne fun e => h7 e.symm
      | exact chPre_head_ne fun e => h8 e.symm
      | exact chPre_head_ne fun e => h9 e.symm

theorem tryOps_amb_none {x : Char} {xs : List Char} (hx : opStart x = false) :
    tryOps ambOps (x :: xs) = none := by
  apply tryOps_none
  intro op hop
  simp only [opStart, Bool.or_eq_false_iff, decide_eq_false_iff_not] at hx
  obtain ⟨⟨⟨⟨⟨⟨⟨⟨h1, h2⟩, h3⟩, h4⟩, h5⟩, h6⟩, h7⟩, h8⟩, h9⟩ := hx
  fin_cases hop <;>
    first
      | exact chPre_head_ne fun e => h2 e.symm
      | exact chPre_head_ne fun e => h7 e.symm
      | exact chPre_head_ne fun e => h8 e.symm

theorem opPadGo_safe_id : ∀ (fuel : Nat) (l : List Char),
    (∀ c ∈ l, opStart c = false) → opPadGo safeOps fuel l = l := by
  intro fuel
  induction fuel with
  | zero => intro l _; rfl
  | succ fuel ih =>
      intro l h
      cases l with
      | nil => rfl
      | cons c rest =>
          have hr : tryOps safeOps ((c :: rest).dropWhile isWsJS) = none := by
            cases hd : (c :: rest).dropWhile isWsJS with
            | nil => exact tryOps_safe_none_nil
            | cons x xs =>
                refine tryOps_safe_none (h x ?_)
                exact List.dropWhile_subset _ (by rw [hd]; simp)
          simp only [opPadGo, spanWs, hr]
          by_cases hw : ((c :: rest).takeWhile isWsJS).isEmpty
          · simp only [hw, if_true]
            exact congrArg (c :: ·) (ih rest fun x hx => h x (by simp [hx]))
          · simp only [hw, Bool.false_eq_true, if_false]
            rw [ih _ fun x hx => h x (List.dropWhile_subset _ hx)]
            exact List.takeWhile_append_dropWhile ..

theorem ambPadGo_id : ∀ (fuel : Nat) (prev : Option Char) (l : List Char),
    (∀ c ∈ l, opStart c = false) → ambPadGo fuel prev l = l := by
  intro fuel
  induction fuel with
  | zero => intro prev l _; rfl
  | succ fuel ih =>
      intro prev l h
      cases l with
      | nil => rfl
      | cons c rest =>
          have hr : tryOps ambOps ((c :: rest).dropWhile isWsJS) = none := by
            cases hd : (c :: rest).dropWhile isWsJS with
            | nil => exact tryOps_amb_none_nil
            | cons x xs =>
                refine tryOps_amb_none (h x ?_)
                exact List.dropWhile_subset _ (by rw [hd]; simp)
          simp only [ambPadGo, spanWs, hr]
          simp only [ite_self]
          exact congrArg (c :: ·) (ih (some c) rest fun x hx => h x (by simp [hx]))

theorem commaPadGo_id : ∀ (fuel : Nat) (l : List Char),
    (∀ c ∈ l, c ≠ ',') → commaPadGo fuel l = l := by
  intro fuel
  induction fuel with
  | zero => intro l _; rfl
  | succ fuel ih =>
      intro l h
      cases l with
      | nil => rfl
      | cons c rest =>
          simp only [commaPadGo, spanWs]
          cases hd : (c :: rest).dropWhile isWsJS with
          | nil =>
              by_cases hw : ((c :: rest).takeWhile isWsJS).isEmpty
              · simp only [hw, if_true]
                exact congrArg (c :: ·) (ih rest fun x hx => h x (by simp [hx]))
              · simp only [hw, Bool.false_eq_true, if_false]
                rw [ih _ fun x hx => h x (List.dropWhile_subset _ (hd ▸ hx))]
                rw [← hd]
                exact List.takeWhile_append_dropWhile ..
          | cons x xs =>
              have hx : ¬ (x = ',') :=
                h x (List.dropWhile_subset _ (by rw [hd]; simp))
              simp only [hx, Bool.false_eq_true, if_false]
              by_cases hw : ((c :: rest).takeWhile isWsJS).isEmpty
              · simp only [hw, if_true]
                exact congrArg (c :: ·) (ih rest fun y hy => h y (by simp [hy]))
              · simp only [hw, Bool.false_eq_true, if_false]
                rw [ih _ fun y hy => h y (List.dropWhile_subset _ (hd ▸ hy))]
                rw [← hd]
                exact List.takeWhile_append_dropWhile ..

theorem restoreGo_id {ps : List (List Char)} : ∀ (fuel : Nat) (l : List Char),
    (∀ c ∈ l, c ≠ '_') → restoreGo ps fuel l = l := by
  intro fuel
  induction fuel with
  | zero => intro l _; rfl
  | succ fuel ih =>
      intro l h
      cases l with
      | nil => rfl
      | cons c rest =>
          have hc : chPre "__PLACEHOLDER_".data (c :: rest) = false :=
            chPre_head_ne fun e => h c (by simp) e.symm
          simp only [restoreGo, hc, Bool.false_eq_true, if_false]
          exact congrArg (c :: ·) (ih rest fun x hx => h x (by simp [hx]))

theorem tabNorm_cons (c : Char) (l : List Char) :
    tabNorm (c :: l) =
      (if c = '\t' then [' ', ' ', ' ', ' '] else [c]) ++ tabNorm l := by
  simp [tabNorm]

theorem tabNorm_append (a b : List Char) :
    tabNorm (a ++ b) = tabNorm a ++ tabNorm b := by
  simp [tabNorm]

theorem prependLine_ne_nil {xs : List Char} {ls : List (List Char)} :
    prependLine xs ls ≠ [] := by
  cases ls <;> simp [prependLine]

theorem prependLine_prependLine (xs ys : List Char) (ls : List (List Char)) :
    prependLine xs (prependLine ys ls) = prependLine (xs ++ ys) ls := by
  cases ls <;> simp [prependLine]

theorem map_tabNorm_prependLine (xs : List Char) (ls : List (List Char)) :
    (prependLine xs ls).map tabNorm = prependLine (tabNorm xs) (ls.map tabNorm) := by
  cases ls <;> simp [prependLine, tabNorm_append]

theorem splitLines_cons_nl (l : List Char) :
    splitLines ('\n' :: l) = [] :: splitLines l := by
  rw [splitLines.eq_def]; simp

theorem splitLines_cons_crlf (l : List Char) :
    splitLines ('\r' :: '\n' :: l) = [] :: splitLines l := by
  rw [splitLines.eq_def]; simp

theorem splitLines_cons_cr_notnl {d : Char} (l : List Char) (hd : d ≠ '\n') :
    splitLines ('\r' :: d :: l) = prependLine ['\r'] (splitLines (d :: l)) := by
  rw [splitLines.eq_def]; simp [hd]

theorem splitLines_cons_plain {c : Char} (l : List Char)
    (h1 : c ≠ '\n') (h2 : c ≠ '\r') :
    splitLines (c :: l) = prependLine [c] (splitLines l) := by
  rw [splitLines.eq_def]; simp [h1, h2]

theorem splitLines_ne_nil (l : List Char) : splitLines l ≠ [] := by
  cases l with
  | nil => decide
  | cons c rest =>
      rw [splitLines.eq_def]
      by_cases h1 : c = '\n'
      · simp [h1]
      by_cases h2 : c = '\r'
      · simp only [h1, if_false, h2, if_true]
        cases rest with
        | nil => simp
        | cons d rest2 =>
            by_cases h3 : d = '\n'
            · simp [h3]
            · simp [h3, prependLine_ne_nil]
      · simp [h1, h2, prependLine_ne_nil]

theorem tabNorm_head_no_nl {d : Char} (l : List Char) (hd : d ≠ '\n') :
    ∃ e es, tabNorm (d :: l) = e :: es ∧ e ≠ '\n' := by
  by_cases ht : d = '\t'
  · exact ⟨' ', ' ' :: ' ' :: ' ' :: tabNorm l, by simp [tabNorm_cons, ht], by decide⟩
  · exact ⟨d, tabNorm l, by simp [tabNorm_cons, ht], hd⟩

theorem splitLines_tabNorm_aux : ∀ (n : Nat) (l : List Char), l.length ≤ n →
    splitLines (tabNorm l) = (splitLines l).map tabNorm := by
  intro n
  induction n with
  | zero =>
      intro l h
      cases l with
      | nil => rfl
      | cons c rest => simp at h
  | succ n ih =>
      intro l hlen
      cases l with
      | nil => rfl
      | cons c rest =>
          simp only [List.length_cons, Nat.add_le_add_iff_right] at hlen
          by_cases h1 : c = '\n'
          · subst h1
            rw [tabNorm_cons]
            simp only [if_neg (by decide : ¬ ('\n' = '\t'))]
            rw [List.singleton_append, splitLines_cons_nl, splitLines_cons_nl,
              List.map_cons, ih rest hlen]
            rfl
          by_cases h2 : c = '\r'
          · subst h2
            cases rest with
            | nil => decide
            | cons d rest2 =>
                by_cases h3 : d = '\n'
                · subst h3
                  rw [tabNorm_cons, tabNorm_cons]
                  simp only [if_neg (by decide : ¬ ('\r' = '\t')),
                    if_neg (by decide : ¬ ('\n' = '\t'))]
                  rw [List.singleton_append, List.singleton_append,
                    splitLines_cons_crlf, splitLines_cons_crlf, List.map_cons,
                    ih rest2 (by simp at hlen; omega)]
                  rfl
                · rw [tabNorm_cons]
                  simp only [if_neg (by decide : ¬ ('\r' = '\t'))]
                  obtain ⟨e, es, he, hne⟩ := tabNorm_head_no_nl rest2 h3
                  rw [List.singleton_append, he, splitLines_cons_cr_notnl _ hne,
                    ← he, ih (d :: rest2) hlen,
                    splitLines_cons_cr_notnl _ h3, map_tabNorm_prependLine]
                  rfl
          · by_cases h4 : c = '\t'
            · subst h4
              have ht : tabNorm ('\t' :: rest) =
                  ' ' :: ' ' :: ' ' :: ' ' :: tabNorm rest := by
                simp [tabNorm]
              rw [ht]
              have hsp : ∀ (x : List Char), splitLines (' ' :: x) =
                  prependLine [' '] (splitLines x) :=
                fun x => splitLines_cons_plain x (by decide) (by decide)
              rw [hsp, hsp, hsp, hsp, ih rest hlen,
                splitLines_cons_plain _ h1 h2, map_tabNorm_prependLine,
                prependLine_prependLine, prependLine_prependLine,
                prependLine_prependLine]
              rfl
            · rw [tabNorm_cons]
              simp only [if_neg h4]
              rw [List.singleton_append, splitLines_cons_plain _ h1 h2,
                ih rest hlen, splitLines_cons_plain _ h1 h2,
                map_tabNorm_prependLine]
              congr 1
              simp [tabNorm, h4]

theorem splitLines_tabNorm (l : List Char) :
    splitLines (tabNorm l) = (splitLines l).map tabNorm :=
  splitLines_tabNorm_aux l.length l le_rfl

theorem dropWhile_dropWhile (p : Char → Bool) (x : List Char) :
    (x.dropWhile p).dropWhile p = x.dropWhile p := by
  cases hd : x.dropWhile p with
  | nil => rfl
  | cons c r =>
      have hh := List.head?_dropWhile_not p x
      rw [hd] at hh
      simp only [List.head?_cons] at hh
      exact List.dropWhile_cons_of_neg (by simp [hh])

theorem trimEndJS_idem (l : List Char) : trimEndJS (trimEndJS l) = trimEndJS l := by
  unfold trimEndJS
  rw [List.reverse_reverse, dropWhile_dropWhile]

theorem dropWhile_nil_all {p : Char → Bool} : ∀ {x : List Char},
    x.dropWhile p = [] → ∀ c ∈ x, p c = true := by
  intro x
  induction x with
  | nil => simp
  | cons a l ih =>
      intro h c hc
      by_cases hp : p a
      · rw [List.dropWhile_cons_of_pos hp] at h
        rcases List.mem_cons.mp hc with rfl | hc
        · exact hp
        · exact ih h c hc
      · rw [List.dropWhile_cons_of_neg hp] at h
        exact absurd h (by simp)

theorem trim_isEmpty_of_trimEnd {line : List Char} (h : trimEndJS line = line) :
    (trimJS line).isEmpty = line.isEmpty := by
  unfold trimJS
  rw [h]
  cases hl : line with
  | nil => rfl
  | cons c r =>
      cases he : ((c :: r).dropWhile isWsJS) with
      | cons d s => rfl
      | nil =>
          have hall := dropWhile_nil_all he
          have hrev : (c :: r).reverse.dropWhile isWsJS = (c :: r).reverse := by
            have h2 := congrArg List.reverse h
            unfold trimEndJS at h2
            rw [List.reverse_reverse] at h2
            rw [hl] at h2
            exact h2
          have hlast := List.head?_dropWhile_not isWsJS (c :: r).reverse
          rw [hrev] at hlast
          cases hy : (c :: r).reverse with
          | nil => exact absurd hy (by simp)
          | cons y ys =>
              rw [hy] at hlast
              simp only [List.head?_cons] at hlast
              have hmem : y ∈ (c :: r) := by
                rw [← List.mem_reverse, hy]; simp
              rw [hall y hmem] at hlast
              exact absurd hlast (by simp)

theorem mem_trimEndJS {c : Char} {l : List Char} (h : c ∈ trimEndJS l) : c ∈ l := by
  unfold trimEndJS at h
  rw [List.mem_reverse] at h
  exact List.mem_reverse.mp (List.dropWhile_subset _ h)

theorem mem_tabNorm {c : Char} {l : List Char} (h : c ∈ tabNorm l) :
    c = ' ' ∨ c ∈ l := by
  simp only [tabNorm, List.mem_flatMap] at h
  obtain ⟨a, ha, hc⟩ := h
  by_cases ht : a = '\t'
  · rw [if_pos ht] at hc
    simp at hc
    exact Or.inl hc
  · rw [if_neg ht] at hc
    simp at hc
    exact Or.inr (hc ▸ ha)

theorem prependLine_chars {P : Char → Prop} {xs : List Char} {ls : List (List Char)}
    (hxs : ∀ c ∈ xs, P c) (hls : ∀ line ∈ ls, ∀ c ∈ line, P c) :
    ∀ line ∈ prependLine xs ls, ∀ c ∈ line, P c := by
  cases ls with
  | nil =>
      intro line hl c hc
      simp only [prependLine, List.mem_singleton] at hl
      subst hl
      exact hxs c hc
  | cons l0 ls0 =>
      intro line hl c hc
      simp only [prependLine, List.mem_cons] at hl
      rcases hl with rfl | hl
      · rcases List.mem_append.mp hc with h | h
        · exact hxs c h
        · exact hls l0 (by simp) c h
      · exact hls line (by simp [hl]) c hc

theorem splitLines_chars_aux {P : Char → Prop} : ∀ (n : Nat) (x : List Char),
    x.length ≤ n → (∀ c ∈ x, P c) →
    ∀ line ∈ splitLines x, ∀ c ∈ line, P c := by
  intro n
  induction n with
  | zero =>
      intro x hlen hx line hl c hc
      cases x with
      | nil => simp [splitLines] at hl; subst hl; cases hc
      | cons a b => simp at hlen
  | succ n ih =>
      intro x hlen hx line hl c hc
      cases x with
      | nil => simp [splitLines] at hl; subst hl; cases hc
      | cons a rest =>
          simp only [List.length_cons, Nat.add_le_add_iff_right] at hlen
          by_cases h1 : a = '\n'
          · subst h1
            rw [splitLines_cons_nl] at hl
            rcases List.mem_cons.mp hl with rfl | hl
            · cases hc
            · exact ih rest hlen (fun y hy => hx y (by simp [hy])) line hl c hc
          by_cases h2 : a = '\r'
          · subst h2
            cases rest with
            | nil =>
                rw [show splitLines ['\r'] = [['\r']] from by decide] at hl
                simp at hl
                subst hl
                simp at hc
                exact hc ▸ hx '\r' (by simp)
            | cons d rest2 =>
                by_cases h3 : d = '\n'
                · subst h3
                  rw [splitLines_cons_crlf] at hl
                  rcases List.mem_cons.mp hl with rfl | hl
                  · cases hc
                  · exact ih rest2 (by simp at hlen; omega)
                      (fun y hy => hx y (by simp [hy])) line hl c hc
                · rw [splitLines_cons_cr_notnl _ h3] at hl
                  refine prependLine_chars ?_ ?_ line hl c hc
                  · intro y hy
                    simp at hy
                    exact hy ▸ hx '\r' (by simp)
                  · exact ih (d :: rest2) hlen fun y hy => hx y (by simp [hy])
          · rw [splitLines_cons_plain _ h1 h2] at hl
            refine prependLine_chars ?_ ?_ line hl c hc
            · intro y hy
              simp at hy
              exact hy ▸ hx a (by simp)
            · exact ih rest hlen fun y hy => hx y (by simp [hy])

theorem splitLines_chars {P : Char → Prop} {x : List Char} (hx : ∀ c ∈ x, P c) :
    ∀ line ∈ splitLines x, ∀ c ∈ line, P c :=
  splitLines_chars_aux x.length x le_rfl hx

theorem splitLines_no_nl_aux : ∀ (n : Nat) (x : List Char), x.length ≤ n →
    ∀ line ∈ splitLines x, ∀ c ∈ line, c ≠ '\n' := by
  intro n
  induction n with
  | zero =>
      intro x hlen line hl c hc
      cases x with
      | nil => simp [splitLines] at hl; subst hl; cases hc
      | cons a b => simp at hlen
  | succ n ih =>
      intro x hlen line hl c hc
      cases x with
      | nil => simp [splitLines] at hl; subst hl; cases hc
      | cons a rest =>
          simp only [List.length_cons, Nat.add_le_add_iff_right] at hlen
          by_cases h1 : a = '\n'
          · subst h1
            rw [splitLines_cons_nl] at hl
            rcases List.mem_cons.mp hl with rfl | hl
            · cases hc
            · exact ih rest hlen line hl c hc
          by_cases h2 : a = '\r'
          · subst h2
            cases rest with
            | nil =>
                rw [show splitLines ['\r'] = [['\r']] from by decide] at hl
                simp at hl
                subst hl
                simp at hc
                subst hc
                decide
            | cons d rest2 =>
                by_cases h3 : d = '\n'
                · subst h3
                  rw [splitLines_cons_crlf] at hl
                  rcases List.mem_cons.mp hl with rfl | hl
                  · cases hc
                  · exact ih rest2 (by simp at hlen; omega) line hl c hc
                · rw [splitLines_cons_cr_notnl _ h3] at hl
                  refine @prependLine_chars (fun ch => ch ≠ '\n') _ _ ?_ ?_ line hl c hc
                  · intro y hy
                    simp at hy
                    subst hy
                    decide
                  · exact ih (d :: rest2) hlen
          · rw [splitLines_cons_plain _ h1 h2] at hl
            refine @prependLine_chars (fun ch => ch ≠ '\n') _ _ ?_ ?_ line hl c hc
            · intro y hy
              simp at hy
              subst hy
              exact h1
            · exact ih rest hlen

theorem splitLines_no_nl {x : List Char} :
    ∀ line ∈ splitLines x, ∀ c ∈ line, c ≠ '\n' :=
  splitLines_no_nl_aux x.length x le_rfl

theorem mem_joinNL {c : Char} : ∀ {ls : List (List Char)}, c ∈ joinNL ls →
    c = '\n' ∨ ∃ line, line ∈ ls ∧ c ∈ line := by
  intro ls
  induction ls with
  | nil => intro h; cases h
  | cons l ls ih =>
      cases ls with
      | nil =>
          intro h
          exact Or.inr ⟨l, by simp, h⟩
      | cons l2 ls2 =>
          intro h
          have hj : joinNL (l :: l2 :: ls2) = l ++ '\n' :: joinNL (l2 :: ls2) := rfl
          rw [hj] at h
          rcases List.mem_append.mp h with h | h
          · exact Or.inr ⟨l, by simp, h⟩
          · rcases List.mem_cons.mp h with rfl | h
            · exact Or.inl rfl
            · rcases ih h with h | ⟨line, hl, hc⟩
              · exact Or.inl h
              · exact Or.inr ⟨line, by simp [hl], hc⟩

theorem mem_collapseGo : ∀ (ls : List (List Char)) (n : Nat),
    ∀ line ∈ collapseGo ls n, line = [] ∨ line ∈ ls := by
  intro ls
  induction ls with
  | nil => intro n line hl; cases hl
  | cons l rest ih =>
      intro n line hl
      rw [collapseGo] at hl
      by_cases hb : (trimJS l).isEmpty
      · rw [if_pos hb] at hl
        by_cases h2 : n + 1 ≤ 2
        · rw [if_pos h2] at hl
          rcases List.mem_cons.mp hl with rfl | hl
          · exact Or.inl rfl
          · rcases ih (n + 1) line hl with h | h
            · exact Or.inl h
            · exact Or.inr (by simp [h])
        · rw [if_neg h2] at hl
          rcases ih (n + 1) line hl with h | h
          · exact Or.inl h
          · exact Or.inr (by simp [h])
      · rw [if_neg hb] at hl
        rcases List.mem_cons.mp hl with rfl | hl
        · exact Or.inr (by simp)
        · rcases ih 0 line hl with h | h
          · exact Or.inl h
          · exact Or.inr (by simp [h])

theorem mem_dropTrailBlank {line : List Char} {ls : List (List Char)}
    (h : line ∈ dropTrailBlank ls) : line ∈ ls := by
  unfold dropTrailBlank at h
  rw [List.mem_reverse] at h
  exact List.mem_reverse.mp (List.dropWhile_subset _ h)

theorem collapseGo_eq_var : ∀ (ls : List (List Char)) (n : Nat),
    (∀ line ∈ ls, trimEndJS line = line) →
    collapseGo ls n = collapseVarGo ls n := by
  intro ls
  induction ls with
  | nil => intro n _; rfl
  | cons line rest ih =>
      intro n h
      have hblank : (trimJS line).isEmpty = line.isEmpty :=
        trim_isEmpty_of_trimEnd (h line (by simp))
      have hrest : ∀ l ∈ rest, trimEndJS l = l := fun l hl => h l (by simp [hl])
      rw [collapseGo, collapseVarGo, hblank]
      by_cases hb : line.isEmpty
      · have hnil : line = [] := List.isEmpty_iff.mp hb
        subst hnil
        simp only [List.isEmpty_nil, if_true]
        by_cases h2 : n + 1 ≤ 2
        · rw [if_pos h2, if_pos h2, ih (n + 1) hrest]
        · rw [if_neg h2, if_neg h2, ih (n + 1) hrest]
      · rw [if_neg hb, if_neg hb, ih 0 hrest]

theorem lineProcess_chars {P : Char → Prop} {x : List Char}
    (hx : ∀ c ∈ x, P c) (hnl : P '\n') :
    ∀ c ∈ lineProcess x, P c := by
  intro c hc
  simp only [lineProcess] at hc
  rcases List.mem_append.mp hc with hc | hc
  · rcases mem_joinNL hc with rfl | ⟨line, hl, hcl⟩
    · exact hnl
    · have hl2 := mem_dropTrailBlank hl
      rcases mem_collapseGo _ _ line hl2 with rfl | hl3
      · cases hcl
      · rcases List.mem_map.mp hl3 with ⟨y, hy, rfl⟩
        exact splitLines_chars hx y hy c (mem_trimEndJS hcl)
  · simp at hc
    subst hc
    exact hnl

theorem formatBuiltinL_plain {l : List Char} (h : ∀ c ∈ l, plainChar c = true) :
    formatBuiltinL l = lineProcess (tabNorm l) := by
  have htab : ∀ c ∈ tabNorm l, plainChar c = true := by
    intro c hc
    rcases mem_tabNorm hc with rfl | hc
    · decide
    · exact h c hc
  have hm1 : maskSC l = (l, []) :=
    maskSCGo_id (fun c hc => ⟨plain_ne (h c hc) (by decide),
      plain_ne (h c hc) (by decide), plain_ne (h c hc) (by decide)⟩) _ 0
  have hm2 : maskNum l 0 = (l, []) :=
    maskNumGo_id (fun c hc => plain_not_digit (h c hc)) _ none 0
  have hsafe : safePad (tabNorm l) = tabNorm l :=
    opPadGo_safe_id _ _ fun c hc => plain_opStart (htab c hc)
  have hamb : ambPad (tabNorm l) = tabNorm l :=
    ambPadGo_id _ none _ fun c hc => plain_opStart (htab c hc)
  have hcomma : commaPad (tabNorm l) = tabNorm l :=
    commaPadGo_id _ _ fun c hc => plain_ne (htab c hc) (by decide)
  have hrest : ∀ fuel, restoreGo [] fuel (lineProcess (tabNorm l)) =
      lineProcess (tabNorm l) := by
    intro fuel
    refine restoreGo_id fuel _ ?_
    exact lineProcess_chars (fun c hc => plain_ne (htab c hc) (by decide)) (by decide)
  simp only [formatBuiltinL, hm1]
  simp only [List.length_nil, hm2, List.nil_append, safePad, ambPad, commaPad] at *
  rw [hsafe, hamb, hcomma, hrest]

theorem lineProcess_tabNorm_eq_var (l : List Char) :
    lineProcess (tabNorm l) = formatBuiltinWsL l := by
  simp only [lineProcess, formatBuiltinWsL]
  rw [splitLines_tabNorm, List.map_map]
  rw [collapseGo_eq_var]
  · rfl
  · intro line hl
    rcases List.mem_map.mp hl with ⟨y, hy, rfl⟩
    exact trimEndJS_idem _

/-- C10: the whitespace-only formatter variant performs exactly tab
normalization, trailing-whitespace stripping, blank-line collapsing,
trailing-blank removal and a single final newline; on every input made of
letters, spaces, tabs and newlines only it agrees with the full
`formatBuiltin`. -/
theorem C10_ws_variant_agrees :
    ∀ s : String, s.data.all plainChar = true →
      formatBuiltinWs s = formatBuiltin s := by
  intro s hs
  rw [List.all_eq_true] at hs
  unfold formatBuiltinWs formatBuiltin
  congr 1
  rw [formatBuiltinL_plain fun c hc => hs c hc, lineProcess_tabNorm_eq_var]

theorem C10_ws_variant_agrees_witness :
    formatBuiltinWs "ab\tc \n\n\n\n\nx\n" = formatBuiltin "ab\tc \n\n\n\n\nx\n" :=
  C10_ws_variant_agrees "ab\tc \n\n\n\n\nx\n" (by decide)

theorem leadBlanks_cons_blank (ls : List (List Char)) :
    leadBlanks ([] :: ls) = leadBlanks ls + 1 := by
  simp [leadBlanks]

theorem collapseGo_blanks : ∀ (ls : List (List Char)) (n : Nat),
    blanksOK (collapseGo ls n) ∧
      leadBlanks (collapseGo ls n) + min n 2 ≤ 2 := by
  intro ls
  induction ls with
  | nil => intro n; exact ⟨trivial, by simp [collapseGo, leadBlanks]⟩
  | cons l rest ih =>
      intro n
      rw [collapseGo]
      by_cases hb : (trimJS l).isEmpty
      · rw [if_pos hb]
        by_cases h2 : n + 1 ≤ 2
        · rw [if_pos h2]
          obtain ⟨hOK, hlead⟩ := ih (n + 1)
          have hlead' : leadBlanks (collapseGo rest (n + 1)) + min (n + 1) 2 ≤ 2 :=
            hlead
          constructor
          · refine ⟨?_, hOK⟩
            intro _
            rw [leadBlanks_cons_blank]
            omega
          · rw [leadBlanks_cons_blank]
            omega
        · rw [if_neg h2]
          obtain ⟨hOK, hlead⟩ := ih (n + 1)
          refine ⟨hOK, ?_⟩
          omega
      · rw [if_neg hb]
        obtain ⟨hOK, hlead⟩ := ih 0
        have hlne : l.isEmpty = false := by
          cases he : l.isEmpty
          · rfl
          · exact absurd (by rw [List.isEmpty_iff.mp he]; rfl) hb
        constructor
        · refine ⟨?_, hOK⟩
          intro he
          rw [he] at hlne
          cases hlne
        · simp [leadBlanks, hlne]

theorem leadBlanks_take (k : Nat) : ∀ (ls : List (List Char)),
    leadBlanks (ls.take k) ≤ leadBlanks ls := by
  induction k with
  | zero => intro ls; simp [leadBlanks]
  | succ k ih =>
      intro ls
      cases ls with
      | nil => simp [leadBlanks]
      | cons l rest =>
          rw [List.take_succ_cons]
          by_cases hb : l.isEmpty
          · simp only [leadBlanks, hb, if_true]
            have := ih rest
            omega
          · simp [leadBlanks, hb]

theorem blanksOK_take : ∀ (ls : List (List Char)) (k : Nat),
    blanksOK ls → blanksOK (ls.take k) := by
  intro ls
  induction ls with
  | nil => intro k _; simp [blanksOK]
  | cons l rest ih =>
      intro k h
      cases k with
      | zero => trivial
      | succ k =>
          rw [List.take_succ_cons]
          refine ⟨?_, ih k h.2⟩
          intro hb
          have h1 := h.1 hb
          simp only [leadBlanks, hb, if_true] at h1 ⊢
          have := leadBlanks_take k rest
          omega

theorem dropTrailBlank_take (ls : List (List Char)) :
    ∃ k, dropTrailBlank ls = ls.take k := by
  have hp : dropTrailBlank ls <+: ls := by
    unfold dropTrailBlank
    have hs : (ls.reverse.dropWhile List.isEmpty) <:+ ls.reverse :=
      List.dropWhile_suffix List.isEmpty
    have h2 := List.reverse_prefix.mpr hs
    rwa [List.reverse_reverse] at h2
  exact ⟨(dropTrailBlank ls).length, List.prefix_iff_eq_take.mp hp⟩

theorem blanksOK_dropTrailBlank {ls : List (List Char)} (h : blanksOK ls) :
    blanksOK (dropTrailBlank ls) := by
  obtain ⟨k, hk⟩ := dropTrailBlank_take ls
  rw [hk]
  exact blanksOK_take ls k h

theorem dropTrailBlank_last {ls : List (List Char)} {lst : List Char}
    (h : (dropTrailBlank ls).getLast? = some lst) : lst ≠ [] := by
  unfold dropTrailBlank at h
  rw [List.getLast?_eq_head?_reverse, List.reverse_reverse] at h
  intro he
  subst he
  have := List.head?_dropWhile_not List.isEmpty ls.reverse
  rw [h] at this
  simp at this

theorem trimEndJS_last_not_ws {y : List Char} {c : Char}
    (h : (trimEndJS y).getLast? = some c) : isWsJS c = false := by
  unfold trimEndJS at h
  rw [List.getLast?_eq_head?_reverse, List.reverse_reverse] at h
  have := List.head?_dropWhile_not isWsJS y.reverse
  rw [h] at this
  exact this

theorem hasSub_head_notin {p : Char} {pat b : List Char} : ∀ (a : List Char),
    p ∉ a → hasSub (a ++ b) (p :: pat) = hasSub b (p :: pat) := by
  intro a
  induction a with
  | nil => intro _; rfl
  | cons c a' ih =>
      intro h
      have hpc : chPre (p :: pat) (c :: (a' ++ b)) = false :=
        chPre_head_ne fun e => h (by simp [e])
      rw [List.cons_append, hasSub, hpc]
      simp only [Bool.false_or]
      exact ih fun hm => h (by simp [hm])

theorem hasSub_straddle {x p : Char} {b : List Char} : ∀ (a : List Char),
    p ∉ a → hasSub (a ++ b) [x, p] = true →
    (a.getLast? = some x ∧ b.head? = some p) ∨ hasSub b [x, p] = true := by
  intro a
  induction a with
  | nil => intro _ h; exact Or.inr h
  | cons c a' ih =>
      intro hp h
      rw [List.cons_append, hasSub] at h
      cases hor : chPre [x, p] (c :: (a' ++ b)) with
      | true =>
          simp only [chPre, Bool.and_eq_true, decide_eq_true_eq] at hor
          obtain ⟨hxc, hrest⟩ := hor
          cases a' with
          | nil =>
              left
              refine ⟨by simp [hxc.symm], ?_⟩
              cases b with
              | nil => simp [chPre] at hrest
              | cons d bs =>
                  simp only [List.nil_append, chPre, Bool.and_eq_true,
                    decide_eq_true_eq] at hrest
                  simp [hrest.1.symm]
          | cons d a'' =>
              simp only [List.cons_append, chPre, Bool.and_eq_true,
                decide_eq_true_eq] at hrest
              exact absurd (hrest.1 ▸ (by simp : d ∈ c :: d :: a'')) hp
      | false =>
          rw [hor] at h
          simp only [Bool.false_or] at h
          rcases ih (fun hm => hp (by simp [hm])) h with ⟨hl, hh⟩ | hb
          · left
            refine ⟨?_, hh⟩
            cases a' with
            | nil => simp at hl
            | cons d a'' => rw [List.getLast?_cons_cons]; exact hl
          · exact Or.inr hb

theorem joinNL_cons_cons_head (c : Char) (cs : List Char) (ls : List (List Char)) :
    ∃ t, joinNL ((c :: cs) :: ls) ++ ['\n'] = c :: t := by
  cases ls with
  | nil => exact ⟨cs ++ ['\n'], rfl⟩
  | cons l2 ls2 =>
      exact ⟨(cs ++ '\n' :: joinNL (l2 :: ls2)) ++ ['\n'], by simp [joinNL]⟩

theorem joinNL_cons_blank (l2 : List Char) (ls2 : List (List Char)) :
    joinNL ([] :: l2 :: ls2) ++ ['\n'] =
      '\n' :: (joinNL (l2 :: ls2) ++ ['\n']) := by
  simp [joinNL]

theorem joinNL_no_three_nl_prefix : ∀ (ls : List (List Char)),
    (∀ line ∈ ls, ∀ c ∈ line, c ≠ '\n') →
    (∀ lst, ls.getLast? = some lst → lst ≠ []) →
    blanksOK ls →
    chPre ['\n', '\n', '\n'] (joinNL ls ++ ['\n']) = false := by
  intro ls hnl hlast hOK
  cases ls with
  | nil => decide
  | cons l ls =>
      cases l with
      | cons c cs =>
          obtain ⟨t, ht⟩ := joinNL_cons_cons_head c cs ls
          rw [ht]
          exact chPre_head_ne (Ne.symm (hnl (c :: cs) (by simp) c (by simp)))
      | nil =>
          cases ls with
          | nil => exact absurd rfl (hlast [] (by decide))
          | cons l2 ls2 =>
              rw [joinNL_cons_blank]
              have h1 : chPre ['\n', '\n', '\n']
                  ('\n' :: (joinNL (l2 :: ls2) ++ ['\n'])) =
                  chPre ['\n', '\n'] (joinNL (l2 :: ls2) ++ ['\n']) := by
                simp [chPre]
              rw [h1]
              cases l2 with
              | cons c2 cs2 =>
                  obtain ⟨t, ht⟩ := joinNL_cons_cons_head c2 cs2 ls2
                  rw [ht]
                  exact chPre_head_ne
                    (Ne.symm (hnl (c2 :: cs2) (by simp) c2 (by simp)))
              | nil =>
                  cases ls2 with
                  | nil => exact absurd rfl (hlast [] (by decide))
                  | cons l3 ls3 =>
                      rw [joinNL_cons_blank]
                      have h2 : chPre ['\n', '\n']
                          ('\n' :: (joinNL (l3 :: ls3) ++ ['\n'])) =
                          chPre ['\n'] (joinNL (l3 :: ls3) ++ ['\n']) := by
                        simp [chPre]
                      rw [h2]
                      cases l3 with
                      | cons c3 cs3 =>
                          obtain ⟨t, ht⟩ := joinNL_cons_cons_head c3 cs3 ls3
                          rw [ht]
                          exact chPre_head_ne
                            (Ne.symm (hnl (c3 :: cs3) (by simp) c3 (by simp)))
                      | nil =>
                          have hle := hOK.1 (by rfl)
                          rw [leadBlanks_cons_blank, leadBlanks_cons_blank,
                            leadBlanks_cons_blank] at hle
                          omega

theorem joinNL_no_four_nl : ∀ (ls : List (List Char)),
    (∀ line ∈ ls, ∀ c ∈ line, c ≠ '\n') →
    (∀ lst, ls.getLast? = some lst → lst ≠ []) →
    blanksOK ls →
    hasSub (joinNL ls ++ ['\n']) ['\n', '\n', '\n', '\n'] = false := by
  intro ls
  induction ls with
  | nil => intro _ _ _; decide
  | cons l ls ih =>
      intro hnl hlast hOK
      have hnotin : '\n' ∉ l := fun hm => hnl l (by simp) '\n' hm rfl
      cases ls with
      | nil =>
          have he : joinNL [l] ++ ['\n'] = l ++ ['\n'] := rfl
          rw [he, hasSub_head_notin l hnotin]
          decide
      | cons l2 ls2 =>
          have hj : joinNL (l :: l2 :: ls2) ++ ['\n'] =
              l ++ ('\n' :: (joinNL (l2 :: ls2) ++ ['\n'])) := by
            simp [joinNL]
          rw [hj, hasSub_head_notin l hnotin, hasSub]
          have h1 : chPre ['\n', '\n', '\n', '\n']
              ('\n' :: (joinNL (l2 :: ls2) ++ ['\n'])) =
              chPre ['\n', '\n', '\n'] (joinNL (l2 :: ls2) ++ ['\n']) := by
            simp [chPre]
          have hnl2 : ∀ line ∈ l2 :: ls2, ∀ c ∈ line, c ≠ '\n' :=
            fun line hline => hnl line (by simp [hline])
          have hlast2 : ∀ lst, (l2 :: ls2).getLast? = some lst → lst ≠ [] :=
            fun lst hlst => hlast lst (by rw [List.getLast?_cons_cons]; exact hlst)
          rw [h1, joinNL_no_three_nl_prefix (l2 :: ls2) hnl2 hlast2 hOK.2]
          simp only [Bool.false_or]
          exact ih hnl2 hlast2 hOK.2

theorem joinNL_no_ws_nl {x : Char} (hxnl : x ≠ '\n') :
    ∀ (ls : List (List Char)),
    (∀ line ∈ ls, ∀ c ∈ line, c ≠ '\n') →
    (∀ line ∈ ls, ∀ c, line.getLast? = some c → isWsJS c = false) →
    isWsJS x = true →
    hasSub (joinNL ls ++ ['\n']) [x, '\n'] = false := by
  intro ls
  induction ls with
  | nil =>
      intro _ _ _
      simp [joinNL, hasSub, chPre, hxnl]
  | cons l ls ih =>
      intro hnl hlastws hx
      have hnotin : '\n' ∉ l := fun hm => hnl l (by simp) '\n' hm rfl
      cases ls with
      | nil =>
          have he : joinNL [l] ++ ['\n'] = l ++ ['\n'] := rfl
          rw [he]
          cases hsub : hasSub (l ++ ['\n']) [x, '\n'] with
          | false => rfl
          | true =>
              rcases hasSub_straddle l hnotin hsub with ⟨hl, _⟩ | hb
              · rw [hlastws l (by simp) x hl] at hx
                cases hx
              · simp [hasSub, chPre, hxnl] at hb
      | cons l2 ls2 =>
          have hj : joinNL (l :: l2 :: ls2) ++ ['\n'] =
              l ++ ('\n' :: (joinNL (l2 :: ls2) ++ ['\n'])) := by
            simp [joinNL]
          rw [hj]
          cases hsub : hasSub (l ++ ('\n' :: (joinNL (l2 :: ls2) ++ ['\n'])))
              [x, '\n'] with
          | false => rfl
          | true =>
              rcases hasSub_straddle l hnotin hsub with ⟨hl, _⟩ | hb
              · rw [hlastws l (by simp) x hl] at hx
                cases hx
              · rw [hasSub] at hb
                have hc : chPre [x, '\n']
                    ('\n' :: (joinNL (l2 :: ls2) ++ ['\n'])) = false :=
                  chPre_head_ne hxnl
                rw [hc] at hb
                simp only [Bool.false_or] at hb
                have hnl2 : ∀ line ∈ l2 :: ls2, ∀ c ∈ line, c ≠ '\n' :=
                  fun line hline => hnl line (by simp [hline])
                have hws2 : ∀ line ∈ l2 :: ls2, ∀ c,
                    line.getLast? = some c → isWsJS c = false :=
                  fun line hline => hlastws line (by simp [hline])
                rw [ih hnl2 hws2 hx] at hb
                cases hb

theorem endsWithL_append_nl (j : List Char) :
    endsWithL (j ++ ['\n']) ['\n'] = true := by
  unfold endsWithL
  rw [List.reverse_append]
  simp [chPre]

theorem joinNL_getLast? : ∀ (ls : List (List Char)) (lst : List Char),
    ls.getLast? = some lst → lst ≠ [] →
    (joinNL ls).getLast? = lst.getLast? := by
  intro ls
  induction ls with
  | nil => intro lst h; cases h
  | cons l ls ih =>
      intro lst h hne
      cases ls with
      | nil =>
          simp at h
          subst h
          rfl
      | cons l2 ls2 =>
          rw [List.getLast?_cons_cons] at h
          have hj : joinNL (l :: l2 :: ls2) =
              l ++ '\n' :: joinNL (l2 :: ls2) := rfl
          have hrec := ih lst h hne
          rw [hj, List.getLast?_append]
          cases hJ : (joinNL (l2 :: ls2)) with
          | nil =>
              rw [hJ] at hrec
              have : lst.getLast? = none := hrec.symm
              rw [List.getLast?_eq_none_iff] at this
              exact absurd this hne
          | cons j0 js =>
              rw [hJ] at hrec
              rw [List.getLast?_cons_cons, hrec]
              have : (j0 :: js).getLast? = lst.getLast? := hrec
              cases hg : lst.getLast? with
              | none => rw [List.getLast?_eq_none_iff] at hg; exact absurd hg hne
              | some y => simp [Option.or]

theorem chPre_reverse_getLast {c : Char} {j : List Char} :
    chPre [c] j.reverse = true ↔ j.getLast? = some c := by
  rw [List.getLast?_eq_head?_reverse]
  cases j.reverse with
  | nil => simp [chPre]
  | cons d r => simp [chPre, eq_comm]

theorem not_endsWith_two_nl {ls : List (List Char)}
    (hnl : ∀ line ∈ ls, ∀ c ∈ line, c ≠ '\n')
    (hlast : ∀ lst, ls.getLast? = some lst → lst ≠ []) :
    endsWithL (joinNL ls ++ ['\n']) ['\n', '\n'] = false := by
  unfold endsWithL
  rw [List.reverse_append]
  have hrev : (['\n', '\n'] : List Char).reverse = ['\n', '\n'] := rfl
  rw [hrev]
  have hs : (['\n'] : List Char).reverse = ['\n'] := rfl
  rw [hs]
  have h1 : chPre ['\n', '\n'] (['\n'] ++ (joinNL ls).reverse) =
      chPre ['\n'] (joinNL ls).reverse := by
    simp [chPre]
  rw [h1]
  cases hc : chPre ['\n'] (joinNL ls).reverse with
  | false => rfl
  | true =>
      have hg : (joinNL ls).getLast? = some '\n' := chPre_reverse_getLast.mp hc
      cases ls with
      | nil => simp [joinNL] at hg
      | cons l0 ls0 =>
          cases he : (l0 :: ls0).getLast? with
          | none => rw [List.getLast?_eq_none_iff] at he; cases he
          | some lst =>
              have hne := hlast lst he
              rw [joinNL_getLast? (l0 :: ls0) lst he hne] at hg
              have hmem : '\n' ∈ lst := List.mem_of_getLast?_eq_some hg
              have hlm : lst ∈ l0 :: ls0 := List.mem_of_getLast?_eq_some he
              exact absurd rfl (hnl lst hlm '\n' hmem)

theorem lineProcess_tidy (T : List Char) : outTidy ⟨lineProcess T⟩ = true := by
  obtain ⟨ls', hls'⟩ :
      ∃ ls', dropTrailBlank (collapseGo ((splitLines T).map trimEndJS) 0) = ls' :=
    ⟨_, rfl⟩
  have hT : lineProcess T = joinNL ls' ++ ['\n'] := by
    rw [← hls']; rfl
  have hmem : ∀ line ∈ ls', line = [] ∨ ∃ y ∈ splitLines T, line = trimEndJS y := by
    intro line hl
    rw [← hls'] at hl
    have h2 := mem_dropTrailBlank hl
    rcases mem_collapseGo _ _ line h2 with h | h
    · exact Or.inl h
    · rcases List.mem_map.mp h with ⟨y, hy, hys⟩
      exact Or.inr ⟨y, hy, hys.symm⟩
  have hnl' : ∀ line ∈ ls', ∀ c ∈ line, c ≠ '\n' := by
    intro line hl c hc
    rcases hmem line hl with rfl | ⟨y, hy, rfl⟩
    · cases hc
    · exact splitLines_no_nl y hy c (mem_trimEndJS hc)
  have hlast' : ∀ lst, ls'.getLast? = some lst → lst ≠ [] := by
    intro lst h
    rw [← hls'] at h
    exact dropTrailBlank_last h
  have hOK' : blanksOK ls' := by
    rw [← hls']
    exact blanksOK_dropTrailBlank (collapseGo_blanks _ 0).1
  have hws' : ∀ line ∈ ls', ∀ c, line.getLast? = some c → isWsJS c = false := by
    intro line hl c hc
    rcases hmem line hl with rfl | ⟨y, hy, rfl⟩
    · cases hc
    · exact trimEndJS_last_not_ws hc
  have hdata : (⟨lineProcess T⟩ : String).data = joinNL ls' ++ ['\n'] := hT
  unfold outTidy
  rw [hdata]
  have e4 : ("\n\n\n\n" : String).data = ['\n', '\n', '\n', '\n'] := rfl
  have e3 : ("\n\n\n" : String).data = ['\n', '\n', '\n'] := rfl
  have e1 : ("\n" : String).data = ['\n'] := rfl
  have e2 : ("\n\n" : String).data = ['\n', '\n'] := rfl
  have es : (" \n" : String).data = [' ', '\n'] := rfl
  have et : ("\t\n" : String).data = ['\t', '\n'] := rfl
  rw [e4, e3, e1, e2, es, et]
  rw [joinNL_no_four_nl ls' hnl' hlast' hOK',
    joinNL_no_three_nl_prefix ls' hnl' hlast' hOK',
    endsWithL_append_nl, not_endsWith_two_nl hnl' hlast',
    joinNL_no_ws_nl (by decide) ls' hnl' hws' (by decide),
    joinNL_no_ws_nl (by decide) ls' hnl' hws' (by decide)]
  rfl

theorem tryOps_mem {ops : List (List Char)} {l op r : List Char} :
    tryOps ops l = some (op, r) → op ∈ ops ∧ r = l.drop op.length := by
  induction ops with
  | nil => intro h; cases h
  | cons o os ih =>
      intro h
      rw [tryOps] at h
      by_cases hc : chPre o l
      · rw [if_pos hc] at h
        simp only [Option.some.injEq, Prod.mk.injEq] at h
        obtain ⟨rfl, rfl⟩ := h
        exact ⟨by simp, rfl⟩
      · rw [if_neg hc] at h
        obtain ⟨h1, h2⟩ := ih h
        exact ⟨by simp [h1], h2⟩

theorem mem_opPadGo {ops : List (List Char)} {c : Char} :
    ∀ (fuel : Nat) (l : List Char),
    c ∈ opPadGo ops fuel l → c ∈ l ∨ c = ' ' ∨ ∃ op ∈ ops, c ∈ op := by
  intro fuel
  induction fuel with
  | zero => intro l h; exact Or.inl h
  | succ fuel ih =>
      intro l h
      cases l with
      | nil => cases h
      | cons c0 rest =>
          rw [opPadGo] at h
          simp only [spanWs] at h
          cases ht : tryOps ops ((c0 :: rest).dropWhile isWsJS) with
          | some pr =>
              obtain ⟨op, r'⟩ := pr
              rw [ht] at h
              obtain ⟨hop, hr⟩ := tryOps_mem ht
              rcases List.mem_cons.mp h with rfl | h
              · exact Or.inr (Or.inl rfl)
              · rcases List.mem_append.mp h with h | h
                · exact Or.inr (Or.inr ⟨op, hop, h⟩)
                · rcases List.mem_cons.mp h with rfl | h
                  · exact Or.inr (Or.inl rfl)
                  · rcases ih _ h with h | h
                    · left
                      have h1 := List.dropWhile_subset _ h
                      rw [hr] at h1
                      have h2 := List.drop_subset _ _ h1
                      exact List.dropWhile_subset _ h2
                    · exact Or.inr h
          | none =>
              rw [ht] at h
              by_cases hw : ((c0 :: rest).takeWhile isWsJS).isEmpty
              · rw [if_pos hw] at h
                rcases List.mem_cons.mp h with rfl | h
                · exact Or.inl (by simp)
                · rcases ih rest h with h | h
                  · exact Or.inl (by simp [h])
                  · exact Or.inr h
              · rw [if_neg hw] at h
                rcases List.mem_append.mp h with h | h
                · exact Or.inl (List.takeWhile_subset _ h)
                · rcases ih _ h with h | h
                  · exact Or.inl (List.dropWhile_subset _ h)
                  · exact Or.inr h

theorem mem_ambPadGo {c : Char} : ∀ (fuel : Nat) (prev : Option Char) (l : List Char),
    c ∈ ambPadGo fuel prev l → c ∈ l ∨ c = ' ' ∨ ∃ op ∈ ambOps, c ∈ op := by
  intro fuel
  induction fuel with
  | zero => intro prev l h; exact Or.inl h
  | succ fuel ih =>
      intro prev l h
      cases l with
      | nil => cases h
      | cons c0 rest =>
          rw [ambPadGo] at h
          simp only [spanWs] at h
          by_cases hlb : lookbehindOK prev
          · rw [if_pos hlb] at h
            cases ht : tryOps ambOps ((c0 :: rest).dropWhile isWsJS) with
            | some pr =>
                obtain ⟨op, r'⟩ := pr
                rw [ht] at h
                obtain ⟨hop, hr⟩ := tryOps_mem ht
                simp only [spanWs] at h
                rcases List.mem_cons.mp h with rfl | h
                · exact Or.inr (Or.inl rfl)
                · rcases List.mem_append.mp h with h | h
                  · exact Or.inr (Or.inr ⟨op, hop, h⟩)
                  · rcases List.mem_cons.mp h with rfl | h
                    · exact Or.inr (Or.inl rfl)
                    · rcases ih _ _ h with h | h
                      · left
                        have h1 := List.dropWhile_subset _ h
                        rw [hr] at h1
                        have h2 := List.drop_subset _ _ h1
                        exact List.dropWhile_subset _ h2
                      · exact Or.inr h
            | none =>
                rw [ht] at h
                rcases List.mem_cons.mp h with rfl | h
                · exact Or.inl (by simp)
                · rcases ih _ rest h with h | h
                  · exact Or.inl (by simp [h])
                  · exact Or.inr h
          · rw [if_neg hlb] at h
            rcases List.mem_cons.mp h with rfl | h
            · exact Or.inl (by simp)
            · rcases ih _ rest h with h | h
              · exact Or.inl (by simp [h])
              · exact Or.inr h

theorem mem_commaPadGo {c : Char} : ∀ (fuel : Nat) (l : List Char),
    c ∈ commaPadGo fuel l → c ∈ l ∨ c = ' ' ∨ c = ',' := by
  intro fuel
  induction fuel with
  | zero => intro l h; exact Or.inl h
  | succ fuel ih =>
      intro l h
      cases l with
      | nil => cases h
      | cons c0 rest =>
          rw [commaPadGo] at h
          simp only [spanWs] at h
          cases hd : (c0 :: rest).dropWhile isWsJS with
          | nil =>
              simp only [hd] at h
              by_cases hw : ((c0 :: rest).takeWhile isWsJS).isEmpty
              · rw [if_pos hw] at h
                rcases List.mem_cons.mp h with rfl | h
                · exact Or.inl (by simp)
                · rcases ih rest h with h | h
                  · exact Or.inl (by simp [h])
                  · exact Or.inr h
              · rw [if_neg hw] at h
                rcases List.mem_append.mp h with h | h
                · exact Or.inl (List.takeWhile_subset _ h)
                · rcases ih _ h with h | h
                  · cases h
                  · exact Or.inr h
          | cons r0 r' =>
              simp only [hd] at h
              by_cases hr0 : r0 = ','
              · rw [if_pos hr0] at h
                rcases List.mem_cons.mp h with rfl | h
                · exact Or.inr (Or.inr rfl)
                · rcases List.mem_cons.mp h with rfl | h
                  · exact Or.inr (Or.inl rfl)
                  · rcases ih _ h with h | h
                    · left
                      have h1 := List.dropWhile_subset _ h
                      have h2 : c ∈ (c0 :: rest).dropWhile isWsJS := by
                        rw [hd]; simp [h1]
                      exact List.dropWhile_subset _ h2
                    · exact Or.inr h
              · rw [if_neg hr0] at h
                by_cases hw : ((c0 :: rest).takeWhile isWsJS).isEmpty
                · rw [if_pos hw] at h
                  rcases List.mem_cons.mp h with rfl | h
                  · exact Or.inl (by simp)
                  · rcases ih rest h with h | h
                    · exact Or.inl (by simp [h])
                    · exact Or.inr h
                · rw [if_neg hw] at h
                  rcases List.mem_append.mp h with h | h
                  · exact Or.inl (List.takeWhile_subset _ h)
                  · rcases ih _ h with h | h
                    · refine Or.inl (List.dropWhile_subset isWsJS ?_)
                      rw [hd]
                      exact h
                    · exact Or.inr h

theorem safeOps_not_underscore {op : List Char} (h : op ∈ safeOps) : '_' ∉ op := by
  fin_cases h <;> decide

theorem ambOps_not_underscore {op : List Char} (h : op ∈ ambOps) : '_' ∉ op := by
  fin_cases h <;> decide

/-- C5 (amended): the blank-line bound, the single trailing newline and the
absence of trailing whitespace hold end to end for every input containing
no string, comment, digit or underscore characters, since on such inputs
every masked span is empty and restoration is the identity on the tidied
text. -/
theorem C5_tidy_no_masks :
    ∀ s : String, s.data.all inert = true → outTidy (formatBuiltin s) = true := by
  intro s hs
  rw [List.all_eq_true] at hs
  have hm1 : maskSC s.data = (s.data, []) := by
    unfold maskSC
    exact maskSCGo_id (fun c hc => ⟨inert_ne (hs c hc) (by decide),
      inert_ne (hs c hc) (by decide), inert_ne (hs c hc) (by decide)⟩) _ 0
  have hm2 : maskNum s.data 0 = (s.data, []) := by
    unfold maskNum
    exact maskNumGo_id (fun c hc => inert_not_digit (hs c hc)) _ none 0
  have hpads : ∀ c ∈ commaPad (ambPad (safePad (tabNorm s.data))), c ≠ '_' := by
    intro c hc
    simp only [commaPad, ambPad, safePad] at hc
    rcases mem_commaPadGo _ _ hc with h | h | h
    · rcases mem_ambPadGo _ _ _ h with h2 | h2 | ⟨op, hop, hcop⟩
      · rcases mem_opPadGo _ _ h2 with h3 | h3 | ⟨op, hop, hcop⟩
        · rcases mem_tabNorm h3 with rfl | h4
          · decide
          · exact inert_ne (hs c h4) (by decide)
        · subst h3; decide
        · intro e; subst e; exact safeOps_not_underscore hop hcop
      · subst h2; decide
      · intro e; subst e; exact ambOps_not_underscore hop hcop
    · subst h; decide
    · subst h; decide
  have hfmt : formatBuiltin s =
      ⟨lineProcess (commaPad (ambPad (safePad (tabNorm s.data))))⟩ := by
    simp only [formatBuiltin, formatBuiltinL, hm1, hm2, List.length_nil,
      List.nil_append]
    congr 1
    exact restoreGo_id _ _ (lineProcess_chars hpads (by decide))
  rw [hfmt]
  exact lineProcess_tidy _

/-- C5 witness: a concrete mask-free input with tabs, trailing blanks and a
run of five blank lines formats to tidy output. -/
theorem C5_tidy_no_masks_witness :
    outTidy (formatBuiltin "a = b\t \n\n\n\n\nc,-d   ") = true :=
  C5_tidy_no_masks "a = b\t \n\n\n\n\nc,-d   " (by decide)
